import Mathlib

/-!
CS201Profiling: control-flow analysis of one procedure

A shallow embedding of the analysis part of `CS201Profiling.cpp`
(`populateBlockInfo`, `populatePredsAndEdges`, `populateDominatorSets`,
`populateBackEdges`, `populateLoopInfomation`) and of the index arithmetic of
the counter instrumentation (`runOnBasicBlock`, `printEdgeCount`,
`printLoopProfilingData`, `printLoopCount`).

Modelling conventions.

* A `std::set<T>` is the list of its elements in iteration order, that is,
  strictly increasing for `operator<` of `T`; `set::insert` is `setInsert`.
* A `std::map<string, V>` that is only read and written through `operator[]`
  is a total function from `String`; a key that was never written reads as the
  value-initialised `V` (the empty set, or `0`), exactly what `operator[]`
  returns for it.
* `std::string::operator<` compares the character sequences
  lexicographically: `strLt`.
* The two unbounded loops (the `do ... while(change)` of
  `populateDominatorSets` and the `while(!bbStack.empty())` of
  `populateLoopInfomation`) take a fuel argument and return `none` when it
  runs out; the theorems give a fuel from which on the result is `some`.
* The block counter `int i` of `populateBlockInfo` is a natural number (no
  procedure has `2^31` blocks).
-/

namespace CS201Profiling

/-! ## Data model -/

/-- A basic block as the analysis sees it: its name (`BB.getName()`) and the
names of the successors of its terminator, in the order
`TI->getSuccessor(0), ..., TI->getSuccessor(e-1)`. -/
structure BasicBlock where
  name : String
  successors : List String
deriving DecidableEq

/-- The block sequence of an `llvm::Function`, in iteration order
(`for (auto &BB : F)`); the head of the list is the entry block. -/
abbrev Procedure := List BasicBlock

/-- The names of the blocks of a procedure, in block-sequence order. -/
def blockNames (F : Procedure) : List String := F.map BasicBlock.name

/-- Comparison `a < b` of `std::string`: lexicographic on the characters. -/
def strLt (a b : String) : Bool := decide (a.data < b.data)

/-- Comparison `p < q` of `std::pair<string, string>`:
`p.first < q.first || (!(q.first < p.first) && p.second < q.second)`. -/
def pairLt (p q : String × String) : Bool :=
  strLt p.1 q.1 || (!strLt q.1 p.1 && strLt p.2 q.2)

/-- Comparison `a < b` of `std::set<string>`, which is
`std::lexicographical_compare` over the two iteration sequences. -/
def setLt : List String → List String → Bool
  | _, [] => false
  | [], _ :: _ => true
  | a :: as, b :: bs =>
    if strLt a b then true else if strLt b a then false else setLt as bs

/-- The method `std::set<T>::insert(x)` on the sorted sequence of the set: the
element goes before the first greater element, and is dropped when an
equivalent element (neither less nor greater) is already there. -/
def setInsert {α : Type} (lt : α → α → Bool) (x : α) : List α → List α
  | [] => [x]
  | y :: ys =>
    if lt x y then x :: y :: ys
    else if lt y x then y :: setInsert lt x ys
    else y :: ys

/-- The call `std::set_intersection(a.begin(), a.end(), b.begin(), b.end(), inserter(...))`
for two `std::set<string>`: the elements of `a` that are also in `b`, in
order. -/
def set_intersection (a b : List String) : List String :=
  a.filter (fun x => decide (x ∈ b))

/-! ## populateBlockInfo, doInitialization -/

/-- State of the loop of `populateBlockInfo`: `blocks`, `block_ids`, `i`. -/
structure BlockInfo where
  blocks : List String
  block_ids : String → Nat
  i : Nat

/-- One iteration of the loop of `populateBlockInfo`:
`blocks.insert(BB.getName()); block_ids[BB.getName()] = i++;`. -/
def populateBlockInfo_step (st : BlockInfo) (BB : BasicBlock) : BlockInfo :=
  { blocks := setInsert strLt BB.name st.blocks
    block_ids := Function.update st.block_ids BB.name st.i
    i := st.i + 1 }

/-- The function `populateBlockInfo`: the block set and the block-index map of
the procedure. -/
def populateBlockInfo (F : Procedure) : BlockInfo :=
  F.foldl populateBlockInfo_step { blocks := [], block_ids := fun _ => 0, i := 0 }

/-- The counter `numBlocks` of `doInitialization` after its loop over the
blocks of `F`: the dimension of the counter arrays of the procedure. -/
def numBlocks (F : Procedure) : Nat := F.foldl (fun n _ => n + 1) 0

/-! ## populatePredsAndEdges -/

/-- State of `populatePredsAndEdges`: the `predecessors` map and the `edges`
set. -/
structure PredsAndEdges where
  predecessors : String → List String
  edges : List (String × String)

/-- The body of the inner loop of `populatePredsAndEdges` for block `BB` and
successor name `BBname`. -/
def populatePredsAndEdges_succ (name : String) (st : PredsAndEdges) (BBname : String) :
    PredsAndEdges :=
  { predecessors :=
      Function.update st.predecessors BBname (setInsert strLt name (st.predecessors BBname))
    edges := setInsert pairLt (name, BBname) st.edges }

/-- The function `populatePredsAndEdges`. -/
def populatePredsAndEdges (F : Procedure) : PredsAndEdges :=
  F.foldl (fun st BB => BB.successors.foldl (populatePredsAndEdges_succ BB.name) st)
    { predecessors := fun _ => [], edges := [] }

/-! ## populateDominatorSets -/

/-- The first loop of `populateDominatorSets`: the first element of the block
set gets the singleton of itself, every other block the whole block set. -/
def initDominators (blocks : List String) : String → List String :=
  match blocks with
  | [] => fun _ => []
  | first :: rest =>
    rest.foldl (fun dom b => Function.update dom b blocks)
      (Function.update (fun _ => []) first [first])

/-- The value `temp` that the body of the fixpoint loop stores in
`dominators[b]`: the block set intersected with the dominator set of every
predecessor in turn, then `b` inserted. -/
def newDominators (predecessors : String → List String) (blocks : List String)
    (dom : String → List String) (b : String) : List String :=
  setInsert strLt b
    ((predecessors b).foldl (fun temp pred => set_intersection temp (dom pred)) blocks)

/-- The body of the inner `for` of the fixpoint loop for one block `b`, on the
pair of the `dominators` map and the `change` flag. -/
def dominators_step (predecessors : String → List String) (blocks : List String)
    (st : (String → List String) × Bool) (b : String) : (String → List String) × Bool :=
  let old := st.1 b
  let temp := newDominators predecessors blocks st.1 b
  (Function.update st.1 b temp, if old ≠ temp then true else st.2)

/-- One pass of the `do` body: `change = false`, then every block but the
first of the block set is recomputed in place, in set order. -/
def dominators_pass (predecessors : String → List String) (blocks : List String)
    (dom : String → List String) : (String → List String) × Bool :=
  blocks.tail.foldl (dominators_step predecessors blocks) (dom, false)

/-- The loop `do ... while(change)` of `populateDominatorSets`, at most `fuel`
passes. -/
def dominators_loop (predecessors : String → List String) (blocks : List String) :
    Nat → (String → List String) → Option (String → List String)
  | 0, _ => none
  | fuel + 1, dom =>
    let r := dominators_pass predecessors blocks dom
    if r.2 then dominators_loop predecessors blocks fuel r.1 else some r.1

/-- The function `populateDominatorSets` on an initially empty `dominators`
map. The block set must be non-empty (the code increments `blocks.begin()`). -/
def populateDominatorSets (fuel : Nat) (predecessors : String → List String)
    (blocks : List String) : Option (String → List String) :=
  match blocks with
  | [] => none
  | _ :: _ => dominators_loop predecessors blocks fuel (initDominators blocks)

/-! ## populateBackEdges -/

/-- The function `populateBackEdges` on an initially empty `back_edges` set. -/
def populateBackEdges (edges : List (String × String)) (dominators : String → List String) :
    List (String × String) :=
  edges.foldl
    (fun back_edges edge =>
      if edge.2 ∈ dominators edge.1 then setInsert pairLt edge back_edges else back_edges)
    []

/-! ## populateLoopInfomation -/

/-- The `for` over the predecessors of the popped block: a predecessor that is
not in `loop` is inserted and pushed. The state is `(loop, bbStack)`, the stack
with its top first. -/
def loop_visit (st : List String × List String) (pred : String) :
    List String × List String :=
  if pred ∈ st.1 then st else (setInsert strLt pred st.1, pred :: st.2)

/-- The loop `while(!bbStack.empty())`, at most `fuel` iterations. -/
def loop_walk (predecessors : String → List String) :
    Nat → List String × List String → Option (List String)
  | _, (loop, []) => some loop
  | 0, (_, _ :: _) => none
  | fuel + 1, (loop, top :: bbStack) =>
    loop_walk predecessors fuel ((predecessors top).foldl loop_visit (loop, bbStack))

/-- The body of the `for` of `populateLoopInfomation` for one back edge: the
set `loop` that is then inserted in `loops`. -/
def loopOfBackEdge (fuel : Nat) (predecessors : String → List String)
    (edge : String × String) : Option (List String) :=
  loop_walk predecessors fuel
    (setInsert strLt edge.1 (setInsert strLt edge.2 []), [edge.1])

/-- The function `populateLoopInfomation` on an initially empty `loops` set;
`fuel` bounds each of the walks. -/
def populateLoopInfomation (fuel : Nat) (back_edges : List (String × String))
    (predecessors : String → List String) : Option (List (List String)) :=
  back_edges.foldl
    (fun loops edge =>
      match loops, loopOfBackEdge fuel predecessors edge with
      | some ls, some loop => some (setInsert setLt loop ls)
      | _, _ => none)
    (some [])

/-! ## Counter slots -/

/-- The slot `edgeCounter[indexFirst][indexSecond]` that the code inserted by
`runOnBasicBlock` into block `cur` increments when the previously executed
block is `prev`: `previousBlockID` holds the index that the code at the end of
`prev` stored. -/
def runOnBasicBlock_slot (block_ids : String → Nat) (prev cur : String) : Nat × Nat :=
  (block_ids prev, block_ids cur)

/-- The slot whose value `printEdgeCount` prints after the label
`edge.first -> edge.second`. -/
def printEdgeCount_slot (block_ids : String → Nat) (edge : String × String) : Nat × Nat :=
  (block_ids edge.1, block_ids edge.2)

/-- The pair `(first, last)` that `printLoopProfilingData` computes for a loop:
the index of `*loop.begin()` and the index of the last block of the iteration
over `loop`. A loop is never empty (the empty case would dereference
`loop.begin()`). -/
def printLoopProfilingData_firstLast (block_ids : String → Nat) (loop : List String) :
    Option (Nat × Nat) :=
  match loop with
  | [] => none
  | b :: rest => some (block_ids b, (b :: rest).foldl (fun _ x => block_ids x) 0)

/-- The slot that `printLoopCount(BB, first, last, edge)` loads:
`edge[last][first]`. -/
def printLoopCount_slot (first last : Nat) : Nat × Nat := (last, first)

/-- The slot that is printed as the iteration count of `loop`. -/
def loopCount_slot (block_ids : String → Nat) (loop : List String) : Option (Nat × Nat) :=
  (printLoopProfilingData_firstLast block_ids loop).map
    (fun fl => printLoopCount_slot fl.1 fl.2)

/-! ## Control-flow notions of the specification -/

/-- There is a control-flow edge `u → v`: some block named `u` lists `v` as a
successor. -/
def isEdge (F : Procedure) (u v : String) : Prop :=
  ∃ BB ∈ F, BB.name = u ∧ v ∈ BB.successors

/-- The list `path` is a control-flow path from `a` to `b`: it starts with `a`,
ends with `b`, and consecutive elements are joined by an edge. -/
def IsPath (F : Procedure) (a b : String) (path : List String) : Prop :=
  path.head? = some a ∧ path.getLast? = some b ∧ path.Chain' (isEdge F)

/-- Block `d` dominates block `b`: every control-flow path from `entry` to `b`
passes through `d`. -/
def Dominates (F : Procedure) (entry d b : String) : Prop :=
  ∀ path, IsPath F entry b path → d ∈ path

/-! ## Properties of the orders used by the sets -/

/-- The comparison `lt` is trichotomous: two elements neither of which is less
than the other are equal, so set equivalence is equality. -/
def Tri {α : Type} (lt : α → α → Bool) : Prop :=
  ∀ a b, lt a b = false → lt b a = false → a = b

/-- The sequence `s` is strictly increasing for `strLt`: it is the iteration
sequence of a `std::set<string>`. -/
def Sorted (s : List String) : Prop := s.Pairwise (fun a b => strLt a b = true)

/-! ## Invariants of the fixpoint loop of populateDominatorSets -/

/-- The invariant of the `dominators` map throughout the fixpoint loop, for the
block set `first :: rest`: the first block keeps its singleton, every
dominator set is a sorted sequence, and recomputing a block yields a subset of
its current set. -/
structure DomInv (predecessors : String → List String) (first : String) (rest : List String)
    (dom : String → List String) : Prop where
  first_eq : dom first = [first]
  sorted : ∀ b, Sorted (dom b)
  shrink : ∀ b ∈ rest, ∀ d ∈ newDominators predecessors (first :: rest) dom b, d ∈ dom b

/-- The total size of the dominator sets of the blocks `rest`: the quantity
that every changing pass decreases. -/
def domMeasure (rest : List String) (dom : String → List String) : Nat :=
  (rest.map (fun b => (dom b).length)).sum

/-! ## Invariants of the walk of populateLoopInfomation -/

/-- Block `x` reaches the tail `u` of the back edge `(u, v)` along a path that
stays in `loop` and meets the header `v` at most as its end `u`. -/
def ReachesTail (F : Procedure) (u v : String) (loop : List String) (x : String) : Prop :=
  ∃ path, IsPath F x u path ∧ ∀ y ∈ path, y ∈ loop ∧ (y = u ∨ y ≠ v)

/-- The invariant of the state `(loop, bbStack)` of the walk for the back edge
`(u, v)`: both ends are in the loop, every block on the stack and every block
of the loop but the header reaches the tail inside the loop, and the
predecessors of a block of the loop are in the loop unless the block still
waits on the stack or is the header of a back edge with a different tail. -/
structure WalkInv (F : Procedure) (u v : String) (st : List String × List String) : Prop where
  header_mem : v ∈ st.1
  tail_mem : u ∈ st.1
  stack_reach : ∀ x ∈ st.2, ReachesTail F u v st.1 x
  loop_reach : ∀ x ∈ st.1, x = v ∨ ReachesTail F u v st.1 x
  closed : ∀ x ∈ st.1, x ∈ st.2 ∨ (x = v ∧ u ≠ v) ∨ ∀ p, isEdge F p x → p ∈ st.1

/-- The measure of the walk: the height of the stack plus the number of blocks
of the procedure that are not yet in the loop. -/
def walkMeasure (F : Procedure) (st : List String × List String) : Nat :=
  st.2.length + ((blockNames F).filter (fun x => decide (x ∉ st.1))).length

/-! ## runOnFunction: the analysis part -/

/-- The local variables of `runOnFunction` after the five `populate` calls. -/
structure Analysis where
  blocks : List String
  block_ids : String → Nat
  predecessors : String → List String
  edges : List (String × String)
  dominators : String → List String
  back_edges : List (String × String)
  loops : List (List String)

/-- The analysis part of `runOnFunction`: `populateBlockInfo`,
`populatePredsAndEdges`, `populateDominatorSets`, `populateBackEdges`,
`populateLoopInfomation`, in this order, each on the results of the previous
ones; `fuel` bounds each of the unbounded loops. -/
def runOnFunction (fuel : Nat) (F : Procedure) : Option Analysis :=
  let info := populateBlockInfo F
  let pe := populatePredsAndEdges F
  match populateDominatorSets fuel pe.predecessors info.blocks with
  | none => none
  | some dominators =>
    let back_edges := populateBackEdges pe.edges dominators
    match populateLoopInfomation fuel back_edges pe.predecessors with
    | none => none
    | some loops =>
      some
        { blocks := info.blocks
          block_ids := info.block_ids
          predecessors := pe.predecessors
          edges := pe.edges
          dominators := dominators
          back_edges := back_edges
          loops := loops }

/-! ## Example procedures -/

/-- The linear procedure `A → B → C`. -/
def linearProc : Procedure :=
  [⟨"A", ["B"]⟩, ⟨"B", ["C"]⟩, ⟨"C", []⟩]

/-- A `do ... while` loop as clang names its blocks: `entry → do.body →
do.cond`, `do.cond → do.body`, `do.cond → do.end`. -/
def doWhileProc : Procedure :=
  [⟨"entry", ["do.body"]⟩, ⟨"do.body", ["do.cond"]⟩, ⟨"do.cond", ["do.body", "do.end"]⟩,
    ⟨"do.end", []⟩]

/-- The single natural loop `Entry → Header → Body → Header`, `Header → Exit`. -/
def singleLoopProc : Procedure :=
  [⟨"Entry", ["Header"]⟩, ⟨"Header", ["Body", "Exit"]⟩, ⟨"Body", ["Header"]⟩, ⟨"Exit", []⟩]

/-- A `for` loop as clang names its blocks: `entry → for.cond`,
`for.cond → for.body`, `for.cond → for.end`, `for.body → for.inc`,
`for.inc → for.cond`. -/
def forProc : Procedure :=
  [⟨"entry", ["for.cond"]⟩, ⟨"for.cond", ["for.body", "for.end"]⟩, ⟨"for.body", ["for.inc"]⟩,
    ⟨"for.inc", ["for.cond"]⟩, ⟨"for.end", []⟩]

/-- A loop with header `H` and two back edges `P → H` and `Q → H`, where `P`
and `Q` also branch to each other: `A → H → P`, `P → Q`, `P → H`, `Q → P`,
`Q → H`. -/
def twoBackEdgesProc : Procedure :=
  [⟨"A", ["H"]⟩, ⟨"H", ["P"]⟩, ⟨"P", ["Q", "H"]⟩, ⟨"Q", ["P", "H"]⟩]

/-- A block `X` with a self-loop: `A → X`, `X → X`, `X → Z`. -/
def selfLoopProc : Procedure :=
  [⟨"A", ["X"]⟩, ⟨"X", ["X", "Z"]⟩, ⟨"Z", []⟩]

/-- A block `U` that no block branches to and that is not the entry:
`A → C`, `U → C`. -/
def unreachableProc : Procedure :=
  [⟨"A", ["C"]⟩, ⟨"C", []⟩, ⟨"U", ["C"]⟩]

/-- The LLVM call `Value::setName`, which the source uses and LLVM defines:
`fn taken requested` is the name that a value gets when the name `requested`
is asked for while `taken` are the names in the symbol table of its function.
The one property taken from LLVM is `free`: a name that is not taken is given
as requested. When the name is taken LLVM gives the value another name that is
not in the table; nothing is assumed about that choice. -/
structure SetName where
  fn : List String → String → String
  free : ∀ (taken : List String) (requested : String),
    requested ∉ taken → fn taken requested = requested

/-- State of the block loop of `doInitialization` for one function: the names
in the symbol table of the function, the names of the blocks visited so far,
in block-sequence order, and the counter `numBlocks`. -/
structure NamingState where
  symtab : List String
  names : List String
  numBlocks : Nat

/-- One iteration of the block loop of `doInitialization`, for a block whose
name is `name` (`none` when `BB.hasName()` is false): an unnamed block gets
the name that `setName` gives for the request `"b" + to_string(numBlocks)`,
which enters the symbol table; `numBlocks` is incremented for every block. -/
def doInitialization_step (S : SetName) (st : NamingState) (name : Option String) :
    NamingState :=
  match name with
  | some n =>
    { symtab := st.symtab, names := st.names ++ [n], numBlocks := st.numBlocks + 1 }
  | none =>
    let given := S.fn st.symtab ("b" ++ toString st.numBlocks)
    { symtab := given :: st.symtab, names := st.names ++ [given],
      numBlocks := st.numBlocks + 1 }

/-- The block loop of `doInitialization` for one function whose blocks have
the names `names` and whose other values (arguments, instructions) have the
names `values`: the symbol table starts with the names of these values and of
the named blocks. -/
def doInitialization_names (S : SetName) (values : List String)
    (names : List (Option String)) : NamingState :=
  names.foldl (doInitialization_step S)
    { symtab := values ++ names.filterMap id, names := [], numBlocks := 0 }

/-- The number that a sequence of decimal digits denotes, continuing from
`acc`. -/
def decimalValue (acc : Nat) (l : List Char) : Nat :=
  l.foldl (fun a c => a * 10 + (c.toNat - 48)) acc

/-- The name that the specification gives the block at position `i`: its own
name, or `b<k>` with `k` the number of unnamed blocks before position `i`. -/
def specName (names : List (Option String)) (i : Nat) : Option String :=
  match names.get? i with
  | none => none
  | some (some n) => some n
  | some none => some ("b" ++ toString ((names.take i).filter (fun n => n.isNone)).length)

/-! ## The passes of the fixpoint loop -/

/-- The `dominators` map after `k` executions of the `do` body of
`populateDominatorSets` on the initial map (whatever the `change` flags). -/
def dominators_after (predecessors : String → List String) (blocks : List String)
    (k : Nat) : String → List String :=
  (fun dom => (dominators_pass predecessors blocks dom).1)^[k] (initDominators blocks)

/-- The list `path` is a path from `a` to `b` in the graph of a predecessor
map: consecutive elements `p`, `q` have `p` among the predecessors of `q`. -/
def IsPredPath (predecessors : String → List String) (a b : String) (path : List String) :
    Prop :=
  path.head? = some a ∧ path.getLast? = some b ∧ path.Chain' (fun p q => p ∈ predecessors q)

/-! ## Lemmas on the set operations -/

theorem strLt_iff (a b : String) : strLt a b = true ↔ a < b := by
  unfold strLt
  rw [decide_eq_true_iff, String.lt_iff_toList_lt]
  rfl

theorem strLt_tri : Tri strLt := by
  intro a b h1 h2
  have h1' : ¬ a < b := by rw [← strLt_iff]; simp [h1]
  have h2' : ¬ b < a := by rw [← strLt_iff]; simp [h2]
  exact le_antisymm (not_lt.mp h2') (not_lt.mp h1')

theorem strLt_irrefl (a : String) : strLt a a = false := by
  have : ¬ (strLt a a = true) := by rw [strLt_iff]; exact lt_irrefl a
  simpa using this

theorem strLt_trans {a b c : String} (h1 : strLt a b = true) (h2 : strLt b c = true) :
    strLt a c = true := by
  rw [strLt_iff] at *
  exact lt_trans h1 h2

theorem pairLt_tri : Tri pairLt := by
  intro p q h1 h2
  obtain ⟨p1, p2⟩ := p
  obtain ⟨q1, q2⟩ := q
  simp only [pairLt, Bool.or_eq_false_iff, Bool.and_eq_false_iff, Bool.not_eq_false_eq_eq_true,
    Bool.not_eq_true'] at h1 h2
  have e1 : p1 = q1 := strLt_tri p1 q1 h1.1 h2.1
  subst e1
  have e2 : p2 = q2 := by
    rcases h1.2 with h | h
    · simp [strLt_irrefl] at h
    rcases h2.2 with h' | h'
    · simp [strLt_irrefl] at h'
    exact strLt_tri p2 q2 h h'
  rw [e2]

theorem setLt_tri : Tri setLt := by
  intro a
  induction a with
  | nil =>
    intro b h1 h2
    cases b with
    | nil => rfl
    | cons y ys => simp [setLt] at h1
  | cons x xs ih =>
    intro b h1 h2
    cases b with
    | nil => simp [setLt] at h2
    | cons y ys =>
      simp only [setLt] at h1 h2
      by_cases hxy : strLt x y = true
      · simp [hxy] at h1
      by_cases hyx : strLt y x = true
      · simp [hyx] at h2
      simp only [hxy, hyx, Bool.false_eq_true, if_false] at h1 h2
      have e := strLt_tri x y (by simpa using hxy) (by simpa using hyx)
      rw [e, ih ys h1 h2]

/-- Membership after `set::insert`. -/
theorem mem_setInsert {α : Type} {lt : α → α → Bool} (htri : Tri lt) (x z : α) (s : List α) :
    z ∈ setInsert lt x s ↔ z = x ∨ z ∈ s := by
  induction s with
  | nil => simp [setInsert]
  | cons y ys ih =>
    unfold setInsert
    by_cases h1 : lt x y = true
    · simp [h1]
    by_cases h2 : lt y x = true
    · simp only [h1, h2, Bool.false_eq_true, if_false, if_true, List.mem_cons, ih]
      tauto
    have e := htri x y (by simpa using h1) (by simpa using h2)
    simp only [h1, h2, Bool.false_eq_true, if_false, List.mem_cons]
    subst e
    tauto

theorem mem_strInsert (x z : String) (s : List String) :
    z ∈ setInsert strLt x s ↔ z = x ∨ z ∈ s :=
  mem_setInsert strLt_tri x z s

theorem sorted_setInsert (x : String) (s : List String) (hs : Sorted s) :
    Sorted (setInsert strLt x s) := by
  induction s with
  | nil => simp [setInsert, Sorted]
  | cons y ys ih =>
    unfold Sorted at hs ih ⊢
    rw [List.pairwise_cons] at hs
    unfold setInsert
    by_cases h1 : strLt x y = true
    · simp only [h1, if_true]
      rw [List.pairwise_cons, List.pairwise_cons]
      refine ⟨?_, hs⟩
      intro z hz
      rcases List.mem_cons.mp hz with e | hz
      · rw [e]; exact h1
      · exact strLt_trans h1 (hs.1 z hz)
    by_cases h2 : strLt y x = true
    · simp only [h1, h2, Bool.false_eq_true, if_false, if_true]
      rw [List.pairwise_cons]
      refine ⟨?_, ih hs.2⟩
      intro z hz
      rcases (mem_strInsert x z ys).mp hz with e | hz
      · rw [e]; exact h2
      · exact hs.1 z hz
    simp only [h1, h2, Bool.false_eq_true, if_false]
    exact List.pairwise_cons.mpr hs

theorem sorted_nodup {s : List String} (hs : Sorted s) : s.Nodup := by
  unfold Sorted at hs
  refine hs.imp ?_
  intro a b h e
  rw [e, strLt_irrefl] at h
  exact Bool.false_ne_true h

/-- Two sets with the same elements have the same iteration sequence. -/
theorem sorted_eq_of_mem_iff {s t : List String} (hs : Sorted s) (ht : Sorted t)
    (h : ∀ x, x ∈ s ↔ x ∈ t) : s = t := by
  have hp : s.Perm t := (List.perm_ext_iff_of_nodup (sorted_nodup hs) (sorted_nodup ht)).mpr h
  have : IsAntisymm String (fun a b => strLt a b = true) := ⟨fun a b h1 h2 => by
    have := strLt_trans h1 h2
    rw [strLt_irrefl] at this
    exact absurd this Bool.false_ne_true⟩
  exact List.eq_of_perm_of_sorted hp hs ht

theorem mem_set_intersection (a b : List String) (x : String) :
    x ∈ set_intersection a b ↔ x ∈ a ∧ x ∈ b := by
  simp [set_intersection]

theorem sorted_set_intersection (a b : List String) (ha : Sorted a) :
    Sorted (set_intersection a b) :=
  List.Pairwise.sublist (List.filter_sublist a) ha

/-- The first element of a set is its least element: a member that no member
is less than is the head of the sequence. -/
theorem sorted_head_of_least {s : List String} (hs : Sorted s) {e : String} (he : e ∈ s)
    (hle : ∀ x ∈ s, strLt x e = false) : ∃ rest, s = e :: rest := by
  cases s with
  | nil => simp at he
  | cons y ys =>
    rcases List.mem_cons.mp he with h | h
    · exact ⟨ys, by rw [h]⟩
    · have h1 : strLt y e = true := (List.pairwise_cons.mp hs).1 e h
      rw [hle y (List.mem_cons_self y ys)] at h1
      exact absurd h1 Bool.false_ne_true

/-! ## populateBlockInfo -/

theorem populateBlockInfo_fold_blocks (F : Procedure) (st : BlockInfo) (x : String) :
    x ∈ (F.foldl populateBlockInfo_step st).blocks ↔ x ∈ st.blocks ∨ x ∈ blockNames F := by
  induction F generalizing st with
  | nil => simp [blockNames]
  | cons BB F ih =>
    rw [List.foldl_cons, ih]
    simp only [populateBlockInfo_step, mem_strInsert, blockNames, List.map_cons, List.mem_cons]
    tauto

theorem populateBlockInfo_fold_sorted (F : Procedure) (st : BlockInfo) (h : Sorted st.blocks) :
    Sorted (F.foldl populateBlockInfo_step st).blocks := by
  induction F generalizing st with
  | nil => exact h
  | cons BB F ih =>
    rw [List.foldl_cons]
    exact ih _ (sorted_setInsert _ _ h)

/-- The block set is the set of the names of the blocks of the procedure. -/
theorem mem_blocks (F : Procedure) (x : String) :
    x ∈ (populateBlockInfo F).blocks ↔ x ∈ blockNames F := by
  unfold populateBlockInfo
  rw [populateBlockInfo_fold_blocks]
  simp

theorem sorted_blocks (F : Procedure) : Sorted (populateBlockInfo F).blocks :=
  populateBlockInfo_fold_sorted F _ List.Pairwise.nil

theorem populateBlockInfo_fold_ids_notMem (F : Procedure) (st : BlockInfo) (x : String)
    (hx : x ∉ blockNames F) :
    (F.foldl populateBlockInfo_step st).block_ids x = st.block_ids x := by
  induction F generalizing st with
  | nil => rfl
  | cons BB F ih =>
    simp only [blockNames, List.map_cons, List.mem_cons, not_or] at hx
    rw [List.foldl_cons, ih _ hx.2]
    simp only [populateBlockInfo_step]
    exact Function.update_noteq hx.1 _ _

theorem populateBlockInfo_fold_ids (F : Procedure) (st : BlockInfo) (hnd : (blockNames F).Nodup)
    (k : Nat) (hk : k < F.length) :
    (F.foldl populateBlockInfo_step st).block_ids (F[k].name) = st.i + k := by
  induction F generalizing st k with
  | nil => simp at hk
  | cons BB F ih =>
    simp only [blockNames, List.map_cons, List.nodup_cons] at hnd
    rw [List.foldl_cons]
    cases k with
    | zero =>
      simp only [List.getElem_cons_zero, Nat.add_zero]
      rw [populateBlockInfo_fold_ids_notMem F _ _ hnd.1]
      simp [populateBlockInfo_step]
    | succ k =>
      simp only [List.getElem_cons_succ]
      rw [ih _ hnd.2 k (by simpa using hk)]
      simp only [populateBlockInfo_step]
      omega

theorem numBlocks_eq (F : Procedure) : numBlocks F = F.length := by
  have h : ∀ (G : Procedure) (n : Nat), G.foldl (fun n _ => n + 1) n = n + G.length := by
    intro G
    induction G with
    | nil => intro n; rfl
    | cons BB G ih =>
      intro n
      rw [List.foldl_cons, ih, List.length_cons]
      omega
  unfold numBlocks
  rw [h]
  omega

/-! ## populatePredsAndEdges -/

theorem populatePredsAndEdges_succ_preds (n : String) (ss : List String) (st : PredsAndEdges)
    (p b : String) :
    p ∈ (ss.foldl (populatePredsAndEdges_succ n) st).predecessors b ↔
      p ∈ st.predecessors b ∨ (p = n ∧ b ∈ ss) := by
  induction ss generalizing st with
  | nil => simp
  | cons s ss ih =>
    rw [List.foldl_cons, ih]
    simp only [populatePredsAndEdges_succ, List.mem_cons]
    by_cases hb : b = s
    · subst hb
      rw [Function.update_same, mem_strInsert]
      tauto
    · rw [Function.update_noteq hb]
      tauto

theorem populatePredsAndEdges_succ_edges (n : String) (ss : List String) (st : PredsAndEdges)
    (e : String × String) :
    e ∈ (ss.foldl (populatePredsAndEdges_succ n) st).edges ↔
      e ∈ st.edges ∨ (e.1 = n ∧ e.2 ∈ ss) := by
  induction ss generalizing st with
  | nil => simp
  | cons s ss ih =>
    rw [List.foldl_cons, ih]
    simp only [populatePredsAndEdges_succ, List.mem_cons, mem_setInsert pairLt_tri]
    obtain ⟨e1, e2⟩ := e
    simp only [Prod.mk.injEq]
    tauto

theorem populatePredsAndEdges_fold_preds (F : Procedure) (st : PredsAndEdges) (p b : String) :
    p ∈ (F.foldl (fun st BB => BB.successors.foldl (populatePredsAndEdges_succ BB.name) st)
        st).predecessors b ↔ p ∈ st.predecessors b ∨ isEdge F p b := by
  induction F generalizing st with
  | nil => simp [isEdge]
  | cons BB F ih =>
    rw [List.foldl_cons, ih, populatePredsAndEdges_succ_preds]
    simp only [isEdge, List.mem_cons, exists_eq_or_imp]
    constructor
    · rintro ((h | ⟨h1, h2⟩) | h)
      · exact Or.inl h
      · exact Or.inr (Or.inl ⟨h1.symm, h2⟩)
      · exact Or.inr (Or.inr h)
    · rintro (h | ⟨h1, h2⟩ | h)
      · exact Or.inl (Or.inl h)
      · exact Or.inl (Or.inr ⟨h1.symm, h2⟩)
      · exact Or.inr h

theorem populatePredsAndEdges_fold_edges (F : Procedure) (st : PredsAndEdges)
    (e : String × String) :
    e ∈ (F.foldl (fun st BB => BB.successors.foldl (populatePredsAndEdges_succ BB.name) st)
        st).edges ↔ e ∈ st.edges ∨ isEdge F e.1 e.2 := by
  induction F generalizing st with
  | nil => simp [isEdge]
  | cons BB F ih =>
    rw [List.foldl_cons, ih, populatePredsAndEdges_succ_edges]
    simp only [isEdge, List.mem_cons, exists_eq_or_imp]
    constructor
    · rintro ((h | ⟨h1, h2⟩) | h)
      · exact Or.inl h
      · exact Or.inr (Or.inl ⟨h1.symm, h2⟩)
      · exact Or.inr (Or.inr h)
    · rintro (h | ⟨h1, h2⟩ | h)
      · exact Or.inl (Or.inl h)
      · exact Or.inl (Or.inr ⟨h1.symm, h2⟩)
      · exact Or.inr h

/-- The predecessor map holds exactly the sources of the edges into a block. -/
theorem mem_predecessors (F : Procedure) (p b : String) :
    p ∈ (populatePredsAndEdges F).predecessors b ↔ isEdge F p b := by
  unfold populatePredsAndEdges
  rw [populatePredsAndEdges_fold_preds]
  simp

/-- The edge set holds exactly the control-flow edges. -/
theorem mem_edges (F : Procedure) (e : String × String) :
    e ∈ (populatePredsAndEdges F).edges ↔ isEdge F e.1 e.2 := by
  unfold populatePredsAndEdges
  rw [populatePredsAndEdges_fold_edges]
  simp

theorem isEdge_source_mem {F : Procedure} {u v : String} (h : isEdge F u v) :
    u ∈ blockNames F := by
  obtain ⟨BB, hBB, hn, _⟩ := h
  exact List.mem_map.mpr ⟨BB, hBB, hn⟩
/-! ## populateDominatorSets: one pass -/

theorem mem_fold_intersection (dom : String → List String) (ps t : List String) (d : String) :
    d ∈ ps.foldl (fun temp pred => set_intersection temp (dom pred)) t ↔
      d ∈ t ∧ ∀ p ∈ ps, d ∈ dom p := by
  induction ps generalizing t with
  | nil => simp
  | cons p ps ih =>
    rw [List.foldl_cons, ih, mem_set_intersection]
    simp only [List.mem_cons, forall_eq_or_imp]
    tauto

theorem sorted_fold_intersection (dom : String → List String) (ps t : List String)
    (ht : Sorted t) : Sorted (ps.foldl (fun temp pred => set_intersection temp (dom pred)) t) := by
  induction ps generalizing t with
  | nil => exact ht
  | cons p ps ih =>
    rw [List.foldl_cons]
    exact ih _ (sorted_set_intersection _ _ ht)

/-- Membership in the recomputed dominator set of `b`. -/
theorem mem_newDominators (preds : String → List String) (blocks : List String)
    (dom : String → List String) (b d : String) :
    d ∈ newDominators preds blocks dom b ↔
      d = b ∨ (d ∈ blocks ∧ ∀ p ∈ preds b, d ∈ dom p) := by
  unfold newDominators
  rw [mem_strInsert, mem_fold_intersection]

theorem sorted_newDominators (preds : String → List String) (blocks : List String)
    (dom : String → List String) (b : String) (hs : Sorted blocks) :
    Sorted (newDominators preds blocks dom b) :=
  sorted_setInsert _ _ (sorted_fold_intersection _ _ _ hs)

theorem fold_update_const (rest : List String) (v : List String) (d0 : String → List String)
    (x : String) :
    (rest.foldl (fun dom b => Function.update dom b v) d0) x = if x ∈ rest then v else d0 x := by
  induction rest generalizing d0 with
  | nil => simp
  | cons b rest ih =>
    rw [List.foldl_cons, ih]
    by_cases h1 : x ∈ rest
    · simp [h1]
    · by_cases h2 : x = b
      · subst h2
        simp [h1]
      · simp [h1, h2, Function.update_noteq h2]

theorem initDominators_first (first : String) (rest : List String) (h : first ∉ rest) :
    initDominators (first :: rest) first = [first] := by
  show (rest.foldl (fun dom b => Function.update dom b (first :: rest))
    (Function.update (fun _ => []) first [first])) _ = _
  rw [fold_update_const]
  simp [h]

theorem initDominators_rest (first : String) (rest : List String) (b : String) (h : b ∈ rest) :
    initDominators (first :: rest) b = first :: rest := by
  show (rest.foldl (fun dom b => Function.update dom b (first :: rest))
    (Function.update (fun _ => []) first [first])) _ = _
  rw [fold_update_const]
  simp [h]

theorem initDominators_other (first : String) (rest : List String) (b : String)
    (h : b ∉ first :: rest) : initDominators (first :: rest) b = [] := by
  show (rest.foldl (fun dom b => Function.update dom b (first :: rest))
    (Function.update (fun _ => []) first [first])) _ = _
  rw [fold_update_const]
  simp only [List.mem_cons, not_or] at h
  simp [h.2, Function.update_noteq h.1]

theorem sorted_singleton (x : String) : Sorted [x] := List.pairwise_singleton _ _

theorem sorted_nil : Sorted [] := List.Pairwise.nil

/-- The initial map satisfies the invariant. -/
theorem domInv_init (preds : String → List String) (first : String) (rest : List String)
    (hs : Sorted (first :: rest)) : DomInv preds first rest (initDominators (first :: rest)) := by
  have hnd := sorted_nodup hs
  have hfr : first ∉ rest := (List.nodup_cons.mp hnd).1
  refine ⟨initDominators_first first rest hfr, ?_, ?_⟩
  · intro b
    by_cases h1 : b ∈ rest
    · rw [initDominators_rest first rest b h1]; exact hs
    · by_cases h2 : b = first
      · rw [h2, initDominators_first first rest hfr]; exact sorted_singleton _
      · rw [initDominators_other first rest b (by simp [h1, h2])]; exact sorted_nil
  · intro b hb d hd
    rw [initDominators_rest first rest b hb]
    rcases (mem_newDominators _ _ _ _ _).mp hd with h | h
    · rw [h]; exact List.mem_cons_of_mem _ hb
    · exact h.1

/-- One recomputation keeps the invariant. -/
theorem domInv_update (preds : String → List String) (first : String) (rest : List String)
    (hs : Sorted (first :: rest)) (dom : String → List String) (hinv : DomInv preds first rest dom)
    (b : String) (hb : b ∈ rest) :
    DomInv preds first rest
      (Function.update dom b (newDominators preds (first :: rest) dom b)) := by
  have hfr : first ∉ rest := (List.nodup_cons.mp (sorted_nodup hs)).1
  have hbf : first ≠ b := fun e => hfr (e ▸ hb)
  have hle : ∀ x d, d ∈ Function.update dom b (newDominators preds (first :: rest) dom b) x →
      d ∈ dom x := by
    intro x d hd
    by_cases hx : x = b
    · subst hx
      rw [Function.update_same] at hd
      exact hinv.shrink x hb d hd
    · rwa [Function.update_noteq hx] at hd
  refine ⟨?_, ?_, ?_⟩
  · rw [Function.update_noteq hbf]; exact hinv.first_eq
  · intro x
    by_cases hx : x = b
    · subst hx
      rw [Function.update_same]
      exact sorted_newDominators _ _ _ _ hs
    · rw [Function.update_noteq hx]; exact hinv.sorted x
  · intro x hx d hd
    have hd' : d ∈ newDominators preds (first :: rest) dom x := by
      rw [mem_newDominators] at hd ⊢
      rcases hd with h | h
      · exact Or.inl h
      · exact Or.inr ⟨h.1, fun p hp => hle p d (h.2 p hp)⟩
    by_cases hxb : x = b
    · subst hxb
      rw [Function.update_same]
      exact hd'
    · rw [Function.update_noteq hxb]
      exact hinv.shrink x hx d hd'

theorem length_le_of_sorted_subset {s t : List String} (hs : Sorted s)
    (h : ∀ x ∈ s, x ∈ t) : s.length ≤ t.length :=
  (List.subperm_of_subset (sorted_nodup hs) h).length_le

theorem length_lt_of_sorted_subset_ne {s t : List String} (hs : Sorted s) (ht : Sorted t)
    (h : ∀ x ∈ s, x ∈ t) (hne : t ≠ s) : s.length < t.length := by
  have hsub := List.subperm_of_subset (sorted_nodup hs) h
  rcases Nat.lt_or_ge s.length t.length with hlt | hge
  · exact hlt
  · exfalso
    have hp : s.Perm t := hsub.perm_of_length_le hge
    apply hne
    exact (sorted_eq_of_mem_iff hs ht (fun x => hp.mem_iff)).symm

theorem domMeasure_update_le (bs : List String) (dom : String → List String) (b : String)
    (v : List String) (hv : v.length ≤ (dom b).length) :
    domMeasure bs (Function.update dom b v) ≤ domMeasure bs dom := by
  induction bs with
  | nil => simp [domMeasure]
  | cons x bs ih =>
    simp only [domMeasure, List.map_cons, List.sum_cons] at ih ⊢
    by_cases hx : x = b
    · subst hx
      rw [Function.update_same]
      omega
    · rw [Function.update_noteq hx]
      omega

theorem domMeasure_update_lt (bs : List String) (dom : String → List String) (b : String)
    (v : List String) (hb : b ∈ bs) (hv : v.length < (dom b).length) :
    domMeasure bs (Function.update dom b v) < domMeasure bs dom := by
  induction bs with
  | nil => simp at hb
  | cons x bs ih =>
    have hle := domMeasure_update_le bs dom b v (Nat.le_of_lt hv)
    simp only [domMeasure, List.map_cons, List.sum_cons] at ih hle ⊢
    by_cases hx : x = b
    · subst hx
      rw [Function.update_same]
      omega
    · rw [Function.update_noteq hx]
      have := ih (by
        rcases List.mem_cons.mp hb with h | h
        · exact absurd h.symm hx
        · exact h)
      omega
/-! ## populateDominatorSets: the fixpoint loop -/

/-- A pass that ends with `change == false` has left the map as it was, and
every block it visited is a fixpoint of the recomputation. -/
theorem fold_step_unchanged (preds : String → List String) (blocks l : List String)
    (st : (String → List String) × Bool)
    (h : (l.foldl (dominators_step preds blocks) st).2 = false) :
    st.2 = false ∧ (l.foldl (dominators_step preds blocks) st).1 = st.1 ∧
      ∀ b ∈ l, newDominators preds blocks st.1 b = st.1 b := by
  induction l generalizing st with
  | nil => exact ⟨h, rfl, by simp⟩
  | cons b l ih =>
    rw [List.foldl_cons] at h ⊢
    obtain ⟨h1, h2, h3⟩ := ih _ h
    have hstep : st.1 b = newDominators preds blocks st.1 b ∧ st.2 = false := by
      simp only [dominators_step] at h1
      by_cases hc : st.1 b = newDominators preds blocks st.1 b
      · simp only [ne_eq, hc, not_true_eq_false, if_false] at h1
        exact ⟨hc, h1⟩
      · simp [hc] at h1
    have hfst : (dominators_step preds blocks st b).1 = st.1 := by
      simp only [dominators_step]
      rw [← hstep.1]
      exact Function.update_eq_self b st.1
    rw [hfst] at h2 h3
    refine ⟨hstep.2, h2, ?_⟩
    intro x hx
    rcases List.mem_cons.mp hx with e | hx
    · rw [e]; exact hstep.1.symm
    · exact h3 x hx

/-- What a pass over the blocks `l` preserves: the invariant, any property `Q`
that a single recomputation preserves; the measure does not grow, and it
decreases when the pass sets `change`. -/
theorem fold_step_inv (preds : String → List String) (first : String) (rest : List String)
    (hs : Sorted (first :: rest)) (Q : (String → List String) → Prop)
    (hQ : ∀ dom b, b ∈ rest → DomInv preds first rest dom → Q dom →
      Q (Function.update dom b (newDominators preds (first :: rest) dom b)))
    (l : List String) (hl : ∀ b ∈ l, b ∈ rest) (st : (String → List String) × Bool)
    (hinv : DomInv preds first rest st.1) (hq : Q st.1) :
    DomInv preds first rest (l.foldl (dominators_step preds (first :: rest)) st).1 ∧
      Q (l.foldl (dominators_step preds (first :: rest)) st).1 ∧
      domMeasure rest (l.foldl (dominators_step preds (first :: rest)) st).1 ≤
        domMeasure rest st.1 ∧
      ((l.foldl (dominators_step preds (first :: rest)) st).2 = true →
        st.2 = true ∨
          domMeasure rest (l.foldl (dominators_step preds (first :: rest)) st).1 <
            domMeasure rest st.1) := by
  induction l generalizing st with
  | nil => exact ⟨hinv, hq, le_refl _, fun h => Or.inl h⟩
  | cons b l ih =>
    have hb : b ∈ rest := hl b (List.mem_cons_self b l)
    have hsub : ∀ d ∈ newDominators preds (first :: rest) st.1 b, d ∈ st.1 b :=
      hinv.shrink b hb
    have hsn := sorted_newDominators preds (first :: rest) st.1 b hs
    have hinv' := domInv_update preds first rest hs st.1 hinv b hb
    have hq' := hQ st.1 b hb hinv hq
    have hm' : domMeasure rest (dominators_step preds (first :: rest) st b).1 ≤
        domMeasure rest st.1 :=
      domMeasure_update_le rest st.1 b _ (length_le_of_sorted_subset hsn hsub)
    obtain ⟨i1, i2, i3, i4⟩ :=
      ih (fun x hx => hl x (List.mem_cons_of_mem b hx))
        (dominators_step preds (first :: rest) st b) hinv' hq'
    rw [List.foldl_cons]
    refine ⟨i1, i2, le_trans i3 hm', ?_⟩
    intro hc
    rcases i4 hc with h | h
    · simp only [dominators_step] at h
      by_cases hne : st.1 b = newDominators preds (first :: rest) st.1 b
      · simp only [ne_eq, hne, not_true_eq_false, if_false] at h
        exact Or.inl h
      · right
        have hlt : domMeasure rest (dominators_step preds (first :: rest) st b).1 <
            domMeasure rest st.1 :=
          domMeasure_update_lt rest st.1 b _ hb
            (length_lt_of_sorted_subset_ne hsn (hinv.sorted b) hsub hne)
        exact lt_of_le_of_lt i3 hlt
    · exact Or.inr (lt_of_lt_of_le h hm')

/-- The fixpoint loop returns when the fuel exceeds the measure; the map it
returns satisfies the invariant and every preserved property, and is a
fixpoint of the recomputation of every block but the first. -/
theorem dominators_loop_result (preds : String → List String) (first : String)
    (rest : List String) (hs : Sorted (first :: rest)) (Q : (String → List String) → Prop)
    (hQ : ∀ dom b, b ∈ rest → DomInv preds first rest dom → Q dom →
      Q (Function.update dom b (newDominators preds (first :: rest) dom b)))
    (fuel : Nat) (dom : String → List String) (hinv : DomInv preds first rest dom) (hq : Q dom)
    (hfuel : domMeasure rest dom < fuel) :
    ∃ D, dominators_loop preds (first :: rest) fuel dom = some D ∧ DomInv preds first rest D ∧
      Q D ∧ ∀ b ∈ rest, newDominators preds (first :: rest) D b = D b := by
  induction fuel generalizing dom with
  | zero => omega
  | succ fuel ih =>
    obtain ⟨i1, i2, i3, i4⟩ :=
      fold_step_inv preds first rest hs Q hQ rest (fun _ h => h) (dom, false) hinv hq
    unfold dominators_loop
    simp only [dominators_pass, List.tail_cons]
    by_cases hc : (rest.foldl (dominators_step preds (first :: rest)) (dom, false)).2 = true
    · rw [if_pos hc]
      rcases i4 hc with h | h
      · exact absurd h Bool.false_ne_true
      · exact ih _ i1 i2 (by simp only at h; omega)
    · rw [if_neg hc]
      have hc' := fold_step_unchanged preds (first :: rest) rest (dom, false)
        (by simpa using hc)
      refine ⟨_, rfl, i1, i2, ?_⟩
      rw [hc'.2.1]
      exact hc'.2.2

theorem domMeasure_init (first : String) (rest : List String) :
    domMeasure rest (initDominators (first :: rest)) = rest.length * (rest.length + 1) := by
  unfold domMeasure
  have h : rest.map (fun b => (initDominators (first :: rest) b).length) =
      rest.map (fun _ => rest.length + 1) := by
    apply List.map_congr_left
    intro b hb
    rw [initDominators_rest first rest b hb, List.length_cons]
  rw [h]
  simp

/-- The result of `populateDominatorSets` on a non-empty block set: with more
than `|rest| * (|rest| + 1)` passes allowed the loop returns a map that is a
fixpoint. -/
theorem populateDominatorSets_result (preds : String → List String) (first : String)
    (rest : List String) (hs : Sorted (first :: rest)) (Q : (String → List String) → Prop)
    (hQ : ∀ dom b, b ∈ rest → DomInv preds first rest dom → Q dom →
      Q (Function.update dom b (newDominators preds (first :: rest) dom b)))
    (hQ0 : Q (initDominators (first :: rest)))
    (fuel : Nat) (hfuel : rest.length * (rest.length + 1) < fuel) :
    ∃ D, populateDominatorSets fuel preds (first :: rest) = some D ∧ DomInv preds first rest D ∧
      Q D ∧ ∀ b ∈ rest, newDominators preds (first :: rest) D b = D b := by
  unfold populateDominatorSets
  exact dominators_loop_result preds first rest hs Q hQ fuel _ (domInv_init preds first rest hs)
    hQ0 (by rw [domMeasure_init]; exact hfuel)
/-! ## Control-flow paths -/

theorem isPath_single (F : Procedure) (a : String) : IsPath F a a [a] :=
  ⟨rfl, rfl, List.chain'_singleton a⟩

theorem isPath_snoc {F : Procedure} {a b c : String} {l : List String} (h : IsPath F a b l)
    (he : isEdge F b c) : IsPath F a c (l ++ [c]) := by
  obtain ⟨h1, h2, h3⟩ := h
  have hne : l ≠ [] := by
    intro e
    rw [e] at h1
    simp at h1
  refine ⟨?_, ?_, ?_⟩
  · rw [List.head?_append_of_ne_nil l hne]; exact h1
  · simp
  · refine List.Chain'.append h3 (List.chain'_singleton c) ?_
    intro x hx y hy
    rw [h2] at hx
    simp only [Option.mem_def, Option.some.injEq, List.head?_cons] at hx hy
    rw [← hx, ← hy]
    exact he

theorem isPath_cons {F : Procedure} {a b c : String} {l : List String} (h : IsPath F b c l)
    (he : isEdge F a b) : IsPath F a c (a :: l) := by
  obtain ⟨h1, h2, h3⟩ := h
  cases l with
  | nil => simp at h1
  | cons x l =>
    simp only [List.head?_cons, Option.some.injEq] at h1
    subst h1
    refine ⟨rfl, ?_, ?_⟩
    · rw [List.getLast?_cons_cons]; exact h2
    · exact List.chain'_cons.mpr ⟨he, h3⟩

/-- A path is either the single block, or a path to a predecessor of its end
followed by that end. -/
theorem isPath_snoc_cases {F : Procedure} {a b : String} {l : List String} (h : IsPath F a b l) :
    (a = b ∧ l = [a]) ∨ ∃ l' y, l = l' ++ [b] ∧ IsPath F a y l' ∧ isEdge F y b := by
  obtain ⟨h1, h2, h3⟩ := h
  rcases List.eq_nil_or_concat l with e | ⟨l', x, e⟩
  · rw [e] at h1; simp at h1
  · rw [List.concat_eq_append] at e
    subst e
    have hx : x = b := by simpa using h2
    subst hx
    rcases List.eq_nil_or_concat l' with e' | ⟨l'', y, e'⟩
    · subst e'
      left
      simp only [List.nil_append, List.head?_cons, Option.some.injEq] at h1
      exact ⟨h1.symm, by rw [h1]; rfl⟩
    · right
      rw [List.concat_eq_append] at e'
      subst e'
      have hc := List.chain'_append.mp h3
      refine ⟨l'' ++ [y], y, rfl, ?_, ?_⟩
      · refine ⟨?_, by simp, hc.1⟩
        rw [List.head?_append_of_ne_nil _ (by simp)] at h1
        exact h1
      · exact hc.2.2 y (by simp) x (by simp)

/-! ## populateDominatorSets computes the dominators -/

/-- Every path from the first block to `x` contains every element of the
dominator set of `x`, when the map is a fixpoint. -/
theorem fixpoint_sound (F : Procedure) (first : String) (rest : List String)
    (hblocks : ∀ x, x ∈ first :: rest ↔ x ∈ blockNames F)
    (D : String → List String) (hfirst : D first = [first])
    (hfix : ∀ b ∈ rest,
      newDominators (populatePredsAndEdges F).predecessors (first :: rest) D b = D b)
    (l : List String) :
    ∀ x, x ∈ first :: rest → IsPath F first x l → ∀ d ∈ D x, d ∈ l := by
  induction l using List.reverseRecOn with
  | nil =>
    intro x _ hp
    have := hp.1
    simp at this
  | append_singleton l' z ih =>
    intro x hx hp d hd
    have hfl : first ∈ l' ++ [z] := by
      have h1 := hp.1
      exact List.mem_of_mem_head? h1
    rcases isPath_snoc_cases hp with ⟨_, _⟩ | ⟨l'', y, e, hp', he⟩
    · by_cases hxf : x = first
      · rw [hxf, hfirst] at hd
        rw [List.mem_singleton.mp hd]
        exact hfl
      · rename_i h1 h2
        exact absurd h1.symm hxf
    · have e' := List.append_inj' e rfl
      have e1 : l' = l'' := e'.1
      subst e1
      by_cases hxf : x = first
      · rw [hxf, hfirst] at hd
        rw [List.mem_singleton.mp hd]
        exact hfl
      · have hxr : x ∈ rest := by
          rcases List.mem_cons.mp hx with h | h
          · exact absurd h hxf
          · exact h
        rw [← hfix x hxr, mem_newDominators] at hd
        rcases hd with h | h
        · rw [h, e]
          simp
        · have hy : y ∈ first :: rest := (hblocks y).mpr (isEdge_source_mem he)
          have hdy : d ∈ D y := h.2 y ((mem_predecessors F y x).mpr he)
          exact List.mem_append_left _ (ih y hy hp' d hdy)

/-- The completeness property kept by the loop: the dominator set of a block
contains every block that dominates it. -/
theorem complete_update (F : Procedure) (first : String) (rest : List String)
    (hblocks : ∀ x, x ∈ first :: rest ↔ x ∈ blockNames F)
    (dom : String → List String) (b : String)
    (hq : ∀ x ∈ first :: rest, ∀ d ∈ first :: rest, Dominates F first d x → d ∈ dom x) :
    ∀ x ∈ first :: rest, ∀ d ∈ first :: rest, Dominates F first d x →
      d ∈ Function.update dom b
        (newDominators (populatePredsAndEdges F).predecessors (first :: rest) dom b) x := by
  intro x hx d hd hdom
  by_cases hxb : x = b
  · subst hxb
    rw [Function.update_same, mem_newDominators]
    by_cases hdx : d = x
    · exact Or.inl hdx
    · right
      refine ⟨hd, ?_⟩
      intro p hp
      have he : isEdge F p x := (mem_predecessors F p x).mp hp
      apply hq p ((hblocks p).mpr (isEdge_source_mem he)) d hd
      intro l hl
      have := hdom (l ++ [x]) (isPath_snoc hl he)
      rcases List.mem_append.mp this with h | h
      · exact h
      · exact absurd (List.mem_singleton.mp h) hdx
  · rw [Function.update_noteq hxb]
    exact hq x hx d hd hdom

theorem complete_init (F : Procedure) (first : String) (rest : List String)
    (hnd : first ∉ rest) :
    ∀ x ∈ first :: rest, ∀ d ∈ first :: rest, Dominates F first d x →
      d ∈ initDominators (first :: rest) x := by
  intro x hx d hd hdom
  rcases List.mem_cons.mp hx with h | h
  · subst h
    rw [initDominators_first x rest hnd]
    exact hdom [x] (isPath_single F x)
  · rw [initDominators_rest first rest x h]
    exact hd

theorem blocks_length_le (F : Procedure) : (populateBlockInfo F).blocks.length ≤ F.length := by
  have h := (List.subperm_of_subset (sorted_nodup (sorted_blocks F))
    (fun x hx => (mem_blocks F x).mp hx)).length_le
  simpa [blockNames] using h

/-- The dominator analysis of a procedure whose block set is `first :: rest`:
with `|F|²` passes allowed, `populateDominatorSets` returns a map `D` that
satisfies the loop invariant, is a fixpoint, and holds for every block exactly
the blocks that dominate it with respect to `first`. -/
theorem dominators_correct (F : Procedure) (first : String) (rest : List String)
    (hb : (populateBlockInfo F).blocks = first :: rest)
    (fuel : Nat) (hfuel : F.length * F.length ≤ fuel) :
    ∃ D, populateDominatorSets fuel (populatePredsAndEdges F).predecessors
        (populateBlockInfo F).blocks = some D ∧
      DomInv (populatePredsAndEdges F).predecessors first rest D ∧
      (∀ b ∈ rest,
        newDominators (populatePredsAndEdges F).predecessors (first :: rest) D b = D b) ∧
      ∀ b ∈ blockNames F, ∀ d, d ∈ D b ↔ (d ∈ blockNames F ∧ Dominates F first d b) := by
  have hs : Sorted (first :: rest) := hb ▸ sorted_blocks F
  have hblocks : ∀ x, x ∈ first :: rest ↔ x ∈ blockNames F := by
    intro x
    rw [← hb]
    exact mem_blocks F x
  have hfr : first ∉ rest := (List.nodup_cons.mp (sorted_nodup hs)).1
  have hlen : rest.length + 1 ≤ F.length := by
    have := blocks_length_le F
    rw [hb] at this
    simpa using this
  have hfuel' : rest.length * (rest.length + 1) < fuel := by
    have h1 : rest.length * (rest.length + 1) < (rest.length + 1) * (rest.length + 1) := by
      nlinarith
    have h2 : (rest.length + 1) * (rest.length + 1) ≤ F.length * F.length :=
      Nat.mul_le_mul hlen hlen
    omega
  obtain ⟨D, hD, hinv, hq, hfix⟩ :=
    populateDominatorSets_result (populatePredsAndEdges F).predecessors first rest hs
      (fun dom => ∀ x ∈ first :: rest, ∀ d ∈ first :: rest, Dominates F first d x → d ∈ dom x)
      (fun dom b _ _ hq => complete_update F first rest hblocks dom b hq)
      (complete_init F first rest hfr) fuel hfuel'
  refine ⟨D, by rw [hb]; exact hD, hinv, hfix, ?_⟩
  intro b hbm d
  have hbm' : b ∈ first :: rest := (hblocks b).mpr hbm
  constructor
  · intro hd
    constructor
    · by_cases hbf : b = first
      · rw [hbf, hinv.first_eq] at hd
        rw [List.mem_singleton.mp hd, ← hbf]
        exact hbm
      · have hbr : b ∈ rest := by
          rcases List.mem_cons.mp hbm' with h | h
          · exact absurd h hbf
          · exact h
        rw [← hfix b hbr, mem_newDominators] at hd
        rcases hd with h | h
        · rw [h]; exact hbm
        · exact (hblocks d).mp h.1
    · intro l hl
      exact fixpoint_sound F first rest hblocks D hinv.first_eq hfix l b hbm' hl d hd
  · rintro ⟨hd, hdom⟩
    exact hq b hbm' d ((hblocks d).mpr hd) hdom
/-! ## populateBackEdges -/

theorem populateBackEdges_fold (dominators : String → List String)
    (edges acc : List (String × String)) (e : String × String) :
    e ∈ edges.foldl
        (fun back_edges edge =>
          if edge.2 ∈ dominators edge.1 then setInsert pairLt edge back_edges else back_edges)
        acc ↔ e ∈ acc ∨ (e ∈ edges ∧ e.2 ∈ dominators e.1) := by
  induction edges generalizing acc with
  | nil => simp
  | cons x edges ih =>
    rw [List.foldl_cons, ih]
    by_cases hx : x.2 ∈ dominators x.1
    · rw [if_pos hx, mem_setInsert pairLt_tri]
      simp only [List.mem_cons]
      constructor
      · rintro ((h | h) | h)
        · exact Or.inr ⟨Or.inl h, h ▸ hx⟩
        · exact Or.inl h
        · exact Or.inr ⟨Or.inr h.1, h.2⟩
      · rintro (h | ⟨h | h, h'⟩)
        · exact Or.inl (Or.inr h)
        · exact Or.inl (Or.inl h)
        · exact Or.inr ⟨h, h'⟩
    · rw [if_neg hx]
      simp only [List.mem_cons]
      constructor
      · rintro (h | h)
        · exact Or.inl h
        · exact Or.inr ⟨Or.inr h.1, h.2⟩
      · rintro (h | ⟨h | h, h'⟩)
        · exact Or.inl h
        · exact absurd (h ▸ h') hx
        · exact Or.inr ⟨h, h'⟩

theorem mem_populateBackEdges (edges : List (String × String))
    (dominators : String → List String) (e : String × String) :
    e ∈ populateBackEdges edges dominators ↔ e ∈ edges ∧ e.2 ∈ dominators e.1 := by
  unfold populateBackEdges
  rw [populateBackEdges_fold]
  simp

/-! ## populateLoopInfomation: the walk -/

theorem loop_visit_fold_mem (ps : List String) (st : List String × List String) (x : String) :
    x ∈ (ps.foldl loop_visit st).1 ↔ x ∈ st.1 ∨ x ∈ ps := by
  induction ps generalizing st with
  | nil => simp
  | cons p ps ih =>
    rw [List.foldl_cons, ih]
    unfold loop_visit
    by_cases hp : p ∈ st.1
    · rw [if_pos hp]
      simp only [List.mem_cons]
      constructor
      · rintro (h | h)
        · exact Or.inl h
        · exact Or.inr (Or.inr h)
      · rintro (h | h | h)
        · exact Or.inl h
        · exact Or.inl (h ▸ hp)
        · exact Or.inr h
    · rw [if_neg hp]
      simp only [mem_strInsert, List.mem_cons]
      tauto

theorem loop_visit_fold_stack (ps : List String) (st : List String × List String) (x : String) :
    x ∈ (ps.foldl loop_visit st).2 ↔ x ∈ st.2 ∨ (x ∈ ps ∧ x ∉ st.1) := by
  induction ps generalizing st with
  | nil => simp
  | cons p ps ih =>
    rw [List.foldl_cons, ih]
    unfold loop_visit
    by_cases hp : p ∈ st.1
    · rw [if_pos hp]
      simp only [List.mem_cons]
      constructor
      · rintro (h | h)
        · exact Or.inl h
        · exact Or.inr ⟨Or.inr h.1, h.2⟩
      · rintro (h | ⟨h | h, h'⟩)
        · exact Or.inl h
        · exact absurd (h ▸ hp) h'
        · exact Or.inr ⟨h, h'⟩
    · rw [if_neg hp]
      simp only [mem_strInsert, List.mem_cons, not_or]
      constructor
      · rintro ((h | h) | h)
        · exact Or.inr ⟨Or.inl h, h ▸ hp⟩
        · exact Or.inl h
        · exact Or.inr ⟨Or.inr h.1, h.2.2⟩
      · rintro (h | ⟨h | h, h'⟩)
        · exact Or.inl (Or.inr h)
        · exact Or.inl (Or.inl h)
        · by_cases hxp : x = p
          · exact Or.inl (Or.inl hxp)
          · exact Or.inr ⟨h, hxp, h'⟩

theorem filter_notMem_insert_le (ns loop : List String) (p : String) :
    (ns.filter (fun x => decide (x ∉ setInsert strLt p loop))).length ≤
      (ns.filter (fun x => decide (x ∉ loop))).length := by
  induction ns with
  | nil => simp
  | cons n ns ih =>
    simp only [List.filter_cons, mem_strInsert, not_or, decide_eq_true_eq] at ih ⊢
    by_cases h1 : n ∈ loop
    · simp only [h1, not_true_eq_false, and_false, if_false]
      exact ih
    · by_cases h2 : n = p
      · simp only [h2, not_true_eq_false, false_and, if_false]
        split
        · simp only [List.length_cons]; omega
        · exact ih
      · simp only [h1, h2, not_false_eq_true, and_self, if_true, List.length_cons]
        omega

theorem filter_notMem_insert_lt (ns loop : List String) (p : String) (hp : p ∈ ns)
    (hpl : p ∉ loop) :
    (ns.filter (fun x => decide (x ∉ setInsert strLt p loop))).length <
      (ns.filter (fun x => decide (x ∉ loop))).length := by
  induction ns with
  | nil => simp at hp
  | cons n ns ih =>
    have hle := filter_notMem_insert_le ns loop p
    simp only [List.filter_cons, mem_strInsert, not_or, decide_eq_true_eq] at ih hle ⊢
    by_cases h2 : n = p
    · subst h2
      simp only [not_true_eq_false, false_and, if_false, hpl, not_false_eq_true, if_true,
        List.length_cons]
      omega
    · have hp' : p ∈ ns := by
        rcases List.mem_cons.mp hp with h | h
        · exact absurd h.symm h2
        · exact h
      by_cases h1 : n ∈ loop
      · simp only [h1, not_true_eq_false, and_false, if_false]
        exact ih hp'
      · simp only [h1, h2, not_false_eq_true, and_self, if_true, List.length_cons]
        have := ih hp'
        omega

theorem loop_visit_fold_measure (F : Procedure) (ps : List String)
    (hps : ∀ p ∈ ps, p ∈ blockNames F) (st : List String × List String) :
    walkMeasure F (ps.foldl loop_visit st) ≤ walkMeasure F st := by
  induction ps generalizing st with
  | nil => exact le_refl _
  | cons p ps ih =>
    rw [List.foldl_cons]
    refine le_trans (ih (fun q hq => hps q (List.mem_cons_of_mem p hq)) _) ?_
    unfold loop_visit
    by_cases hp : p ∈ st.1
    · rw [if_pos hp]
    · rw [if_neg hp]
      have := filter_notMem_insert_lt (blockNames F) st.1 p (hps p (List.mem_cons_self p ps)) hp
      simp only [walkMeasure, List.length_cons]
      omega
/-- A path is either the single block, or its first block followed by a path
from one of its successors. -/
theorem isPath_cons_cases {F : Procedure} {a b : String} {l : List String} (h : IsPath F a b l) :
    (a = b ∧ l = [a]) ∨ ∃ c l', l = a :: l' ∧ isEdge F a c ∧ IsPath F c b l' := by
  obtain ⟨h1, h2, h3⟩ := h
  cases l with
  | nil => simp at h1
  | cons x l =>
    simp only [List.head?_cons, Option.some.injEq] at h1
    subst h1
    cases l with
    | nil =>
      left
      simp only [List.getLast?_singleton, Option.some.injEq] at h2
      exact ⟨h2, rfl⟩
    | cons c l =>
      right
      rw [List.getLast?_cons_cons] at h2
      rw [List.chain'_cons] at h3
      exact ⟨c, c :: l, rfl, h3.1, rfl, h2, h3.2⟩

theorem reachesTail_mono {F : Procedure} {u v : String} {loop loop' : List String}
    (h : ∀ x ∈ loop, x ∈ loop') {x : String} (hx : ReachesTail F u v loop x) :
    ReachesTail F u v loop' x := by
  obtain ⟨l, hl, hall⟩ := hx
  exact ⟨l, hl, fun y hy => ⟨h y (hall y hy).1, (hall y hy).2⟩⟩

/-- One iteration of the `while` keeps the invariant of the walk. -/
theorem walkInv_step (F : Procedure) (u v : String) (loop stack : List String) (top : String)
    (hinv : WalkInv F u v (loop, top :: stack)) :
    WalkInv F u v
      (((populatePredsAndEdges F).predecessors top).foldl loop_visit (loop, stack)) := by
  have hmem := loop_visit_fold_mem ((populatePredsAndEdges F).predecessors top) (loop, stack)
  have hstack := loop_visit_fold_stack ((populatePredsAndEdges F).predecessors top) (loop, stack)
  simp only at hmem hstack
  have hsub : ∀ x ∈ loop,
      x ∈ (((populatePredsAndEdges F).predecessors top).foldl loop_visit (loop, stack)).1 :=
    fun x hx => (hmem x).mpr (Or.inl hx)
  have htop : ReachesTail F u v loop top := hinv.stack_reach top (List.mem_cons_self top stack)
  have hnew : ∀ p ∈ (populatePredsAndEdges F).predecessors top, p ∉ loop →
      ReachesTail F u v
        (((populatePredsAndEdges F).predecessors top).foldl loop_visit (loop, stack)).1 p := by
    intro p hp hpl
    obtain ⟨l, hl, hall⟩ := htop
    refine ⟨p :: l, isPath_cons hl ((mem_predecessors F p top).mp hp), ?_⟩
    intro y hy
    rcases List.mem_cons.mp hy with e | hy
    · subst e
      refine ⟨(hmem y).mpr (Or.inr hp), Or.inr ?_⟩
      intro e
      exact hpl (e ▸ hinv.header_mem)
    · exact ⟨hsub y (hall y hy).1, (hall y hy).2⟩
  refine ⟨hsub v hinv.header_mem, hsub u hinv.tail_mem, ?_, ?_, ?_⟩
  · intro x hx
    rcases (hstack x).mp hx with h | ⟨h1, h2⟩
    · exact reachesTail_mono hsub (hinv.stack_reach x (List.mem_cons_of_mem top h))
    · exact hnew x h1 h2
  · intro x hx
    by_cases hxl : x ∈ loop
    · rcases hinv.loop_reach x hxl with h | h
      · exact Or.inl h
      · exact Or.inr (reachesTail_mono hsub h)
    · rcases (hmem x).mp hx with h | h
      · exact absurd h hxl
      · exact Or.inr (hnew x h hxl)
  · intro x hx
    by_cases hxl : x ∈ loop
    · rcases hinv.closed x hxl with h | h | h
      · rcases List.mem_cons.mp h with e | h
        · right; right
          intro p hp
          rw [e] at hp
          exact (hmem p).mpr (Or.inr ((mem_predecessors F p top).mpr hp))
        · exact Or.inl ((hstack x).mpr (Or.inl h))
      · exact Or.inr (Or.inl h)
      · exact Or.inr (Or.inr (fun p hp => hsub p (h p hp)))
    · rcases (hmem x).mp hx with h | h
      · exact absurd h hxl
      · exact Or.inl ((hstack x).mpr (Or.inr ⟨h, hxl⟩))

/-- The walk returns when the fuel is at least the measure of its state, and
the loop it returns satisfies the invariant with an empty stack. -/
theorem loop_walk_result (F : Procedure) (u v : String) (fuel : Nat)
    (st : List String × List String) (hinv : WalkInv F u v st)
    (hfuel : walkMeasure F st ≤ fuel) :
    ∃ L, loop_walk (populatePredsAndEdges F).predecessors fuel st = some L ∧
      WalkInv F u v (L, []) := by
  induction fuel generalizing st with
  | zero =>
    obtain ⟨loop, stack⟩ := st
    cases stack with
    | nil => exact ⟨loop, rfl, hinv⟩
    | cons top stack =>
      simp only [walkMeasure, List.length_cons] at hfuel
      omega
  | succ fuel ih =>
    obtain ⟨loop, stack⟩ := st
    cases stack with
    | nil => exact ⟨loop, rfl, hinv⟩
    | cons top stack =>
      have hstep := walkInv_step F u v loop stack top hinv
      have hm := loop_visit_fold_measure F ((populatePredsAndEdges F).predecessors top)
        (fun p hp => isEdge_source_mem ((mem_predecessors F p top).mp hp)) (loop, stack)
      have hm' : walkMeasure F (loop, stack) + 1 = walkMeasure F (loop, top :: stack) := by
        simp only [walkMeasure, List.length_cons]
        omega
      obtain ⟨L, hL, hLinv⟩ := ih _ hstep (by omega)
      exact ⟨L, hL, hLinv⟩

/-- The loop that `populateLoopInfomation` builds for the edge `(u, v)`: with
`|F| + 1` iterations allowed the walk returns a set `L` that holds `v` and `u`,
in which every block other than `v` reaches `u` inside `L` without meeting `v`
before the end, and which holds every block that so reaches `u`. -/
theorem loopOfBackEdge_spec (F : Procedure) (u v : String) (fuel : Nat)
    (hfuel : F.length + 1 ≤ fuel) :
    ∃ L, loopOfBackEdge fuel (populatePredsAndEdges F).predecessors (u, v) = some L ∧
      v ∈ L ∧ u ∈ L ∧ (∀ x ∈ L, x = v ∨ ReachesTail F u v L x) ∧
      ∀ x l, IsPath F x u l → (∀ y ∈ l, y = u ∨ y ≠ v) → x ∈ L := by
  have hmem0 : ∀ x, x ∈ setInsert strLt u (setInsert strLt v []) ↔ x = u ∨ x = v := by
    intro x
    simp [mem_strInsert]
  have hinv0 : WalkInv F u v (setInsert strLt u (setInsert strLt v []), [u]) := by
    have hu : ReachesTail F u v (setInsert strLt u (setInsert strLt v [])) u := by
      refine ⟨[u], isPath_single F u, ?_⟩
      intro y hy
      rw [List.mem_singleton.mp hy]
      exact ⟨(hmem0 u).mpr (Or.inl rfl), Or.inl rfl⟩
    refine ⟨(hmem0 v).mpr (Or.inr rfl), (hmem0 u).mpr (Or.inl rfl), ?_, ?_, ?_⟩
    · intro x hx
      rw [List.mem_singleton.mp hx]
      exact hu
    · intro x hx
      rcases (hmem0 x).mp hx with h | h
      · rw [h]; exact Or.inr hu
      · exact Or.inl h
    · intro x hx
      rcases (hmem0 x).mp hx with h | h
      · exact Or.inl (by rw [h]; exact List.mem_singleton_self u)
      · by_cases huv : u = v
        · exact Or.inl (by rw [h, huv]; exact List.mem_singleton_self v)
        · exact Or.inr (Or.inl ⟨h, huv⟩)
  have hm0 : walkMeasure F (setInsert strLt u (setInsert strLt v []), [u]) ≤ fuel := by
    have h1 := List.length_filter_le
      (fun x => decide (x ∉ setInsert strLt u (setInsert strLt v []))) (blockNames F)
    have h2 : (blockNames F).length = F.length := by simp [blockNames]
    simp only [walkMeasure, List.length_singleton]
    omega
  obtain ⟨L, hL, hLinv⟩ := loop_walk_result F u v fuel _ hinv0 hm0
  refine ⟨L, hL, hLinv.header_mem, hLinv.tail_mem, hLinv.loop_reach, ?_⟩
  intro x l
  induction l generalizing x with
  | nil =>
    intro hp _
    have := hp.1
    simp at this
  | cons a l ih =>
    intro hp hall
    rcases isPath_cons_cases hp with ⟨h1, _⟩ | ⟨c, l', e, he, hp'⟩
    · rw [h1]; exact hLinv.tail_mem
    · have el : l = l' := (List.cons.inj e).2
      subst el
      have hc : c ∈ L := ih c hp' (fun y hy => hall y (List.mem_cons_of_mem a hy))
      have hcl : c ∈ a :: l := by
        have := List.mem_of_mem_head? hp'.1
        exact List.mem_cons_of_mem a this
      rcases hLinv.closed c hc with h | h | h
      · simp at h
      · rcases hall c hcl with h' | h'
        · exact absurd (h'.symm.trans h.1) h.2
        · exact absurd h.1 h'
      · exact h x he
/-! ## populateLoopInfomation: the loop collection -/

theorem setLt_irrefl (a : List String) : setLt a a = false := by
  induction a with
  | nil => rfl
  | cons x xs ih => simp [setLt, strLt_irrefl, ih]

theorem strLt_asymm {a b : String} (h : strLt a b = true) : strLt b a = false := by
  by_contra hc
  have := strLt_trans h (by simpa using hc)
  rw [strLt_irrefl] at this
  exact Bool.false_ne_true this

theorem setLt_trans : ∀ a b c : List String, setLt a b = true → setLt b c = true →
    setLt a c = true := by
  intro a
  induction a with
  | nil =>
    intro b c h1 h2
    cases c with
    | nil =>
      cases b with
      | nil => simp [setLt] at h1
      | cons y ys => simp [setLt] at h2
    | cons z zs => simp [setLt]
  | cons x xs ih =>
    intro b c h1 h2
    cases b with
    | nil => simp [setLt] at h1
    | cons y ys =>
      cases c with
      | nil => simp [setLt] at h2
      | cons z zs =>
        simp only [setLt] at h1 h2 ⊢
        by_cases hxy : strLt x y = true
        · by_cases hyz : strLt y z = true
          · simp [strLt_trans hxy hyz]
          · by_cases hzy : strLt z y = true
            · simp [hyz, hzy] at h2
            · have e := strLt_tri y z (by simpa using hyz) (by simpa using hzy)
              subst e
              simp [hxy]
        · by_cases hyx : strLt y x = true
          · simp [hxy, hyx] at h1
          · have e := strLt_tri x y (by simpa using hxy) (by simpa using hyx)
            subst e
            simp only [hxy, Bool.false_eq_true, if_false] at h1
            by_cases hxz : strLt x z = true
            · simp [hxz]
            · by_cases hzx : strLt z x = true
              · simp [hxz, hzx] at h2
              · simp only [hxz, hzx, Bool.false_eq_true, if_false] at h2 ⊢
                exact ih ys zs h1 h2

/-- The method `set::insert` keeps a sequence strictly increasing, for every
transitive trichotomous comparison. -/
theorem pairwise_setInsert {α : Type} {lt : α → α → Bool} (htri : Tri lt)
    (htrans : ∀ a b c, lt a b = true → lt b c = true → lt a c = true) (x : α) (s : List α)
    (hs : s.Pairwise (fun a b => lt a b = true)) :
    (setInsert lt x s).Pairwise (fun a b => lt a b = true) := by
  induction s with
  | nil => simp [setInsert]
  | cons y ys ih =>
    rw [List.pairwise_cons] at hs
    unfold setInsert
    by_cases h1 : lt x y = true
    · simp only [h1, if_true]
      rw [List.pairwise_cons, List.pairwise_cons]
      refine ⟨?_, hs⟩
      intro z hz
      rcases List.mem_cons.mp hz with e | hz
      · rw [e]; exact h1
      · exact htrans _ _ _ h1 (hs.1 z hz)
    by_cases h2 : lt y x = true
    · simp only [h1, h2, Bool.false_eq_true, if_false, if_true]
      rw [List.pairwise_cons]
      refine ⟨?_, ih hs.2⟩
      intro z hz
      rcases (mem_setInsert htri x z ys).mp hz with e | hz
      · rw [e]; exact h2
      · exact hs.1 z hz
    simp only [h1, h2, Bool.false_eq_true, if_false]
    exact List.pairwise_cons.mpr hs

theorem populateLoopInfomation_fold (fuel : Nat) (preds : String → List String)
    (back_edges : List (String × String)) (acc : List (List String))
    (hacc : acc.Pairwise (fun a b => setLt a b = true))
    (hall : ∀ e ∈ back_edges, ∃ L, loopOfBackEdge fuel preds e = some L) :
    ∃ Ls,
      back_edges.foldl
        (fun loops edge =>
          match loops, loopOfBackEdge fuel preds edge with
          | some ls, some loop => some (setInsert setLt loop ls)
          | _, _ => none)
        (some acc) = some Ls ∧
      Ls.Pairwise (fun a b => setLt a b = true) ∧
      ∀ L, L ∈ Ls ↔ L ∈ acc ∨ ∃ e ∈ back_edges, loopOfBackEdge fuel preds e = some L := by
  induction back_edges generalizing acc with
  | nil => exact ⟨acc, rfl, hacc, by simp⟩
  | cons e es ih =>
    obtain ⟨L0, hL0⟩ := hall e (List.mem_cons_self e es)
    obtain ⟨Ls, h1, h2, h3⟩ := ih (setInsert setLt L0 acc)
      (pairwise_setInsert setLt_tri setLt_trans L0 acc hacc)
      (fun e' he' => hall e' (List.mem_cons_of_mem e he'))
    refine ⟨Ls, ?_, h2, ?_⟩
    · rw [List.foldl_cons, hL0]
      exact h1
    · intro L
      rw [h3, mem_setInsert setLt_tri]
      simp only [List.mem_cons, exists_eq_or_imp, hL0, Option.some.injEq]
      constructor
      · rintro ((h | h) | h)
        · exact Or.inr (Or.inl h.symm)
        · exact Or.inl h
        · exact Or.inr (Or.inr h)
      · rintro (h | h | h)
        · exact Or.inl (Or.inr h)
        · exact Or.inl (Or.inl h.symm)
        · exact Or.inr h

/-- The loop collection: when every walk returns, `populateLoopInfomation`
returns a strictly increasing sequence of sets whose elements are exactly the
loops of the back edges. -/
theorem populateLoopInfomation_spec (fuel : Nat) (preds : String → List String)
    (back_edges : List (String × String))
    (hall : ∀ e ∈ back_edges, ∃ L, loopOfBackEdge fuel preds e = some L) :
    ∃ Ls, populateLoopInfomation fuel back_edges preds = some Ls ∧
      Ls.Pairwise (fun a b => setLt a b = true) ∧
      ∀ L, L ∈ Ls ↔ ∃ e ∈ back_edges, loopOfBackEdge fuel preds e = some L := by
  obtain ⟨Ls, h1, h2, h3⟩ :=
    populateLoopInfomation_fold fuel preds back_edges [] List.Pairwise.nil hall
  exact ⟨Ls, h1, h2, by simpa using h3⟩

theorem setInsert_of_mem {s : List String} (hs : Sorted s) {x : String} (hx : x ∈ s) :
    setInsert strLt x s = s := by
  apply sorted_eq_of_mem_iff (sorted_setInsert x s hs) hs
  intro z
  rw [mem_strInsert]
  constructor
  · rintro (h | h)
    · rw [h]; exact hx
    · exact h
  · exact Or.inr

/-- When the entry block has the least name, the block set starts with it. -/
theorem blocks_eq_entry_cons (entry : BasicBlock) (others : List BasicBlock)
    (hleast : ∀ BB ∈ others, entry.name < BB.name) :
    ∃ rest, (populateBlockInfo (entry :: others)).blocks = entry.name :: rest := by
  apply sorted_head_of_least (sorted_blocks _)
  · rw [mem_blocks]
    simp [blockNames]
  · intro x hx
    rw [mem_blocks] at hx
    simp only [blockNames, List.map_cons, List.mem_cons, List.mem_map] at hx
    rcases hx with h | ⟨BB, hBB, h⟩
    · rw [h]; exact strLt_irrefl _
    · rw [← h]
      exact strLt_asymm ((strLt_iff _ _).mpr (hleast BB hBB))

/-- The entry block has the least name when `strLt` says so for every other
block. -/
theorem least_of_strLt (entry : BasicBlock) (others : List BasicBlock)
    (h : others.all (fun BB => strLt entry.name BB.name) = true) :
    ∀ BB ∈ others, entry.name < BB.name := by
  intro BB hBB
  rw [List.all_eq_true] at h
  exact (strLt_iff _ _).mp (h BB hBB)

/-- C1: for a procedure `entry :: others` whose block names are pairwise
distinct, whose successors are all blocks of the procedure and whose entry
block has the least name, `populateDominatorSets`, run for at least `|F|²`
passes on the predecessor map of `populatePredsAndEdges` and the block set of
`populateBlockInfo`, returns a map `D` in which, for every block `b`, the set
`D b` holds exactly the blocks `d` that every control-flow path from the entry
to `b` passes through; for a block that no path from the entry reaches this is
the whole block set. -/
theorem populateDominatorSets_exact (entry : BasicBlock) (others : List BasicBlock)
    (_hnd : (blockNames (entry :: others)).Nodup)
    (_hsucc : ∀ BB ∈ entry :: others, ∀ s ∈ BB.successors, s ∈ blockNames (entry :: others))
    (hleast : ∀ BB ∈ others, entry.name < BB.name)
    (fuel : Nat) (hfuel : (entry :: others).length * (entry :: others).length ≤ fuel) :
    ∃ D, populateDominatorSets fuel (populatePredsAndEdges (entry :: others)).predecessors
        (populateBlockInfo (entry :: others)).blocks = some D ∧
      (∀ b ∈ blockNames (entry :: others), ∀ d,
        d ∈ D b ↔
          (d ∈ blockNames (entry :: others) ∧ Dominates (entry :: others) entry.name d b)) ∧
      (∀ b ∈ blockNames (entry :: others),
        (¬ ∃ path, IsPath (entry :: others) entry.name b path) →
          ∀ d, d ∈ D b ↔ d ∈ blockNames (entry :: others)) := by
  obtain ⟨rest, hb⟩ := blocks_eq_entry_cons entry others hleast
  obtain ⟨D, hD, _, _, hchar⟩ := dominators_correct (entry :: others) entry.name rest hb fuel hfuel
  refine ⟨D, hD, hchar, ?_⟩
  intro b hbm hun d
  rw [hchar b hbm d]
  constructor
  · exact fun h => h.1
  · intro hd
    exact ⟨hd, fun path hp => absurd ⟨path, hp⟩ hun⟩

/-- Witness of C1 on the linear procedure `A → B → C`, where the dominator
sets are `{A}`, `{A, B}` and `{A, B, C}`. -/
theorem populateDominatorSets_exact_witness :
    (∃ D, populateDominatorSets 9 (populatePredsAndEdges linearProc).predecessors
        (populateBlockInfo linearProc).blocks = some D ∧
      (∀ b ∈ blockNames linearProc, ∀ d,
        d ∈ D b ↔ (d ∈ blockNames linearProc ∧ Dominates linearProc "A" d b)) ∧
      (∀ b ∈ blockNames linearProc, (¬ ∃ path, IsPath linearProc "A" b path) →
          ∀ d, d ∈ D b ↔ d ∈ blockNames linearProc)) ∧
    (populateDominatorSets 9 (populatePredsAndEdges linearProc).predecessors
        (populateBlockInfo linearProc).blocks).map (fun D => [D "A", D "B", D "C"]) =
      some [["A"], ["A", "B"], ["A", "B", "C"]] :=
  ⟨populateDominatorSets_exact ⟨"A", ["B"]⟩ [⟨"B", ["C"]⟩, ⟨"C", []⟩] (by decide) (by decide)
    (least_of_strLt _ _ (by decide)) 9 (by decide), by decide⟩

/-- C2 (evaluation at the failing input): in the `do ... while` procedure
`doWhileProc` the block set starts with `do.body`, and the dominator set
computed for the entry block `entry` is the whole block set, not `{entry}`. -/
theorem entry_dominators_doWhile :
    (runOnFunction 16 doWhileProc).map (fun a => (a.blocks, a.dominators "entry")) =
      some (["do.body", "do.cond", "do.end", "entry"],
        ["do.body", "do.cond", "do.end", "entry"]) := by
  decide

/-- C3: `populateBackEdges` returns exactly the edges `(u, v)` of the edge set
with `v` in `dominators[u]`; an edge `(u, w)` of the edge set that is not
returned has `w` outside `dominators[u]`. -/
theorem populateBackEdges_exact (edges : List (String × String))
    (dominators : String → List String) :
    (∀ u v, (u, v) ∈ populateBackEdges edges dominators ↔
      ((u, v) ∈ edges ∧ v ∈ dominators u)) ∧
    (∀ u w, (u, w) ∈ edges → (u, w) ∉ populateBackEdges edges dominators →
      w ∉ dominators u) := by
  constructor
  · intro u v
    exact mem_populateBackEdges edges dominators (u, v)
  · intro u w he hnb hw
    exact hnb ((mem_populateBackEdges edges dominators (u, w)).mpr ⟨he, hw⟩)

/-- C4: for every procedure and every set of back edges, `populateLoopInfomation`
on the predecessor map of the procedure, with at least `|F| + 1` iterations
allowed to each walk, returns a loop collection that holds, for every back edge
`(u, v)` of the set whose tail `u` differs from its header `v`, the loop `L`
built for that back edge, and `L` is exactly the header `v` together with the
blocks from which a control-flow path that does not pass through `v` leads to
`u`. -/
theorem populateLoopInfomation_natural_loop (F : Procedure)
    (back_edges : List (String × String)) (fuel : Nat) (hfuel : F.length + 1 ≤ fuel) :
    ∃ Ls, populateLoopInfomation fuel back_edges (populatePredsAndEdges F).predecessors =
        some Ls ∧
      ∀ u v, (u, v) ∈ back_edges → u ≠ v →
        ∃ L, L ∈ Ls ∧
          loopOfBackEdge fuel (populatePredsAndEdges F).predecessors (u, v) = some L ∧
          ∀ x, x ∈ L ↔ (x = v ∨ ∃ path, IsPath F x u path ∧ v ∉ path) := by
  obtain ⟨Ls, hLs, _, hmemLs⟩ :=
    populateLoopInfomation_spec fuel (populatePredsAndEdges F).predecessors back_edges
      (fun e _ => by
        obtain ⟨L, hL, _⟩ := loopOfBackEdge_spec F e.1 e.2 fuel hfuel
        exact ⟨L, hL⟩)
  refine ⟨Ls, hLs, ?_⟩
  intro u v he huv
  obtain ⟨L, hL, hv, _, hreach, hcomplete⟩ := loopOfBackEdge_spec F u v fuel hfuel
  refine ⟨L, (hmemLs L).mpr ⟨(u, v), he, hL⟩, hL, ?_⟩
  intro x
  constructor
  · intro hx
    rcases hreach x hx with h | ⟨l, hl, hall⟩
    · exact Or.inl h
    · right
      refine ⟨l, hl, ?_⟩
      intro hvl
      rcases (hall v hvl).2 with h | h
      · exact huv h.symm
      · exact h rfl
  · rintro (h | ⟨l, hl, hvl⟩)
    · rw [h]; exact hv
    · apply hcomplete x l hl
      intro y hy
      right
      intro e
      exact hvl (e ▸ hy)

/-- Witness of C4 on `forProc`: the pass classifies `for.inc → for.cond` as the
only back edge and records the loop `{for.body, for.cond, for.inc}`, which
`populateLoopInfomation` returns for this back edge set and which is the
natural loop of the back edge (the walk inserts `for.body`); and on
`Entry → Header → Body → Header`, `Header → Exit` with the back edge
`(Body, Header)` the collection returned is `{{Body, Header}}`. -/
theorem populateLoopInfomation_natural_loop_witness :
    (runOnFunction 26 forProc).map (fun a => (a.back_edges, a.loops)) =
      some ([("for.inc", "for.cond")], [["for.body", "for.cond", "for.inc"]]) ∧
    populateLoopInfomation 26 [("for.inc", "for.cond")]
        (populatePredsAndEdges forProc).predecessors =
      some [["for.body", "for.cond", "for.inc"]] ∧
    (∃ Ls, populateLoopInfomation 26 [("for.inc", "for.cond")]
        (populatePredsAndEdges forProc).predecessors = some Ls ∧
      ∀ u v, (u, v) ∈ [("for.inc", "for.cond")] → u ≠ v →
        ∃ L, L ∈ Ls ∧
          loopOfBackEdge 26 (populatePredsAndEdges forProc).predecessors (u, v) = some L ∧
          ∀ x, x ∈ L ↔ (x = v ∨ ∃ path, IsPath forProc x u path ∧ v ∉ path)) ∧
    populateLoopInfomation 5 [("Body", "Header")]
        (populatePredsAndEdges singleLoopProc).predecessors =
      some [["Body", "Header"]] :=
  ⟨by decide, by decide,
    populateLoopInfomation_natural_loop forProc [("for.inc", "for.cond")] 26 (by decide),
    by decide⟩

/-- C5 (evaluation at the failing input): in the `for` procedure `forProc` the
only back edge is `for.inc → for.cond` and its loop is
`{for.body, for.cond, for.inc}`; `runOnBasicBlock` counts the back edge in the
slot `(3, 1)`, which `printEdgeCount` also reports for it, but the slot read
as the iteration count of the loop is `(3, 2)`. -/
theorem loopCount_slot_forProc :
    (runOnFunction 25 forProc).map (fun a => (a.back_edges, a.loops)) =
      some ([("for.inc", "for.cond")], [["for.body", "for.cond", "for.inc"]]) ∧
    (runOnFunction 25 forProc).map (fun a =>
        (runOnBasicBlock_slot a.block_ids "for.inc" "for.cond",
          printEdgeCount_slot a.block_ids ("for.inc", "for.cond"))) = some ((3, 1), (3, 1)) ∧
    (runOnFunction 25 forProc).map (fun a =>
        loopCount_slot a.block_ids ["for.body", "for.cond", "for.inc"]) = some (some (3, 2)) := by
  decide

/-- C6 (counterexample): in `twoBackEdgesProc` the distinct back edges
`P → H` and `Q → H` share the header `H` and both walks build `{H, P, Q}`; the
loop collection has two entries for the three back edges, one of them the
single entry of both back edges to `H`. -/
theorem two_back_edges_one_entry :
    (runOnFunction 17 twoBackEdgesProc).map (fun a => (a.back_edges, a.loops)) =
      some ([("P", "H"), ("Q", "H"), ("Q", "P")], [["H", "P", "Q"], ["P", "Q"]]) ∧
    loopOfBackEdge 17 (populatePredsAndEdges twoBackEdgesProc).predecessors ("P", "H") =
      some ["H", "P", "Q"] ∧
    loopOfBackEdge 17 (populatePredsAndEdges twoBackEdgesProc).predecessors ("Q", "H") =
      some ["H", "P", "Q"] := by
  decide

/-- C6 (amended): for every procedure and every set of back edges,
`populateLoopInfomation`, with at least `|F| + 1` iterations allowed to each
walk, returns a collection without repetition whose entries are exactly the
block sets built for the back edges: two back edges give two entries when
their block sets differ, and one entry when their block sets are equal. -/
theorem populateLoopInfomation_entries (F : Procedure) (back_edges : List (String × String))
    (fuel : Nat) (hfuel : F.length + 1 ≤ fuel) :
    ∃ Ls, populateLoopInfomation fuel back_edges (populatePredsAndEdges F).predecessors =
        some Ls ∧
      Ls.Nodup ∧
      ∀ L, L ∈ Ls ↔
        ∃ e ∈ back_edges,
          loopOfBackEdge fuel (populatePredsAndEdges F).predecessors e = some L := by
  obtain ⟨Ls, h1, h2, h3⟩ :=
    populateLoopInfomation_spec fuel (populatePredsAndEdges F).predecessors back_edges
      (fun e _ => by
        obtain ⟨L, hL, _⟩ := loopOfBackEdge_spec F e.1 e.2 fuel hfuel
        exact ⟨L, hL⟩)
  refine ⟨Ls, h1, ?_, h3⟩
  refine h2.imp ?_
  intro a b hab e
  rw [e, setLt_irrefl] at hab
  exact Bool.false_ne_true hab

/-- Witness of the amended C6 on `twoBackEdgesProc` and its three back
edges. -/
theorem populateLoopInfomation_entries_witness :
    ∃ Ls, populateLoopInfomation 5 [("P", "H"), ("Q", "H"), ("Q", "P")]
        (populatePredsAndEdges twoBackEdgesProc).predecessors = some Ls ∧
      Ls.Nodup ∧
      ∀ L, L ∈ Ls ↔
        ∃ e ∈ [("P", "H"), ("Q", "H"), ("Q", "P")],
          loopOfBackEdge 5 (populatePredsAndEdges twoBackEdgesProc).predecessors e = some L :=
  populateLoopInfomation_entries twoBackEdgesProc [("P", "H"), ("Q", "H"), ("Q", "P")] 5
    (by decide)

/-- C7 (evaluation at the failing input): in `selfLoopProc` the self-loop
`X → X` is the only back edge, and the loop built for it is `{A, X}`, not
`{X}`: the walk pushes the tail `X` although it is the header and so visits
the predecessor `A` of the header. -/
theorem self_loop_takes_predecessor :
    (runOnFunction 9 selfLoopProc).map (fun a => (a.back_edges, a.loops)) =
      some ([("X", "X")], [["A", "X"]]) := by
  decide

/-- C8 (counterexample): in `unreachableProc` the block `U` is not the entry
and has no predecessors, its dominator set is the whole block set, and its
edge `U → C` is classified as a back edge. -/
theorem unreachable_block_back_edge :
    (runOnFunction 9 unreachableProc).map
        (fun a => (a.blocks, a.predecessors "U", a.dominators "U", a.back_edges)) =
      some (["A", "C", "U"], [], ["A", "C", "U"], [("U", "C")]) := by
  decide

/-- C8 (amended): in a procedure whose entry block has the least name, for a
block `U` that is not the entry block and has no predecessors, the dominator
set computed for `U` is the whole block set, no back edge has `U` as its
target, and every edge from `U` to a block of the procedure is classified as a
back edge. -/
theorem unreachable_block_dominators (entry : BasicBlock) (others : List BasicBlock)
    (hleast : ∀ BB ∈ others, entry.name < BB.name)
    (U : String) (hU : U ∈ blockNames (entry :: others)) (hne : U ≠ entry.name)
    (hpred : (populatePredsAndEdges (entry :: others)).predecessors U = [])
    (fuel : Nat) (hfuel : (entry :: others).length * (entry :: others).length ≤ fuel) :
    ∃ D, populateDominatorSets fuel (populatePredsAndEdges (entry :: others)).predecessors
        (populateBlockInfo (entry :: others)).blocks = some D ∧
      D U = (populateBlockInfo (entry :: others)).blocks ∧
      (∀ e ∈ populateBackEdges (populatePredsAndEdges (entry :: others)).edges D, e.2 ≠ U) ∧
      (∀ w ∈ blockNames (entry :: others),
        (U, w) ∈ (populatePredsAndEdges (entry :: others)).edges →
          (U, w) ∈ populateBackEdges (populatePredsAndEdges (entry :: others)).edges D) := by
  obtain ⟨rest, hb⟩ := blocks_eq_entry_cons entry others hleast
  obtain ⟨D, hD, _, hfix, _⟩ :=
    dominators_correct (entry :: others) entry.name rest hb fuel hfuel
  have hs : Sorted (entry.name :: rest) := hb ▸ sorted_blocks (entry :: others)
  have hUb : U ∈ entry.name :: rest := by
    rw [← hb]
    exact (mem_blocks _ U).mpr hU
  have hUr : U ∈ rest := by
    rcases List.mem_cons.mp hUb with h | h
    · exact absurd h hne
    · exact h
  have hDU : D U = entry.name :: rest := by
    rw [← hfix U hUr]
    unfold newDominators
    rw [hpred]
    exact setInsert_of_mem hs hUb
  refine ⟨D, hD, by rw [hb]; exact hDU, ?_, ?_⟩
  · intro e he heU
    have hedge := ((mem_populateBackEdges _ _ e).mp he).1
    have hp : e.1 ∈ (populatePredsAndEdges (entry :: others)).predecessors U := by
      rw [mem_predecessors, ← heU]
      exact (mem_edges _ e).mp hedge
    rw [hpred] at hp
    simp at hp
  · intro w hw he
    rw [mem_populateBackEdges]
    refine ⟨he, ?_⟩
    show w ∈ D U
    rw [hDU, ← hb]
    exact (mem_blocks _ w).mpr hw

/-- Witness of the amended C8 on `unreachableProc` and its block `U`. -/
theorem unreachable_block_dominators_witness :
    ∃ D, populateDominatorSets 9 (populatePredsAndEdges unreachableProc).predecessors
        (populateBlockInfo unreachableProc).blocks = some D ∧
      D "U" = (populateBlockInfo unreachableProc).blocks ∧
      (∀ e ∈ populateBackEdges (populatePredsAndEdges unreachableProc).edges D, e.2 ≠ "U") ∧
      (∀ w ∈ blockNames unreachableProc,
        ("U", w) ∈ (populatePredsAndEdges unreachableProc).edges →
          ("U", w) ∈ populateBackEdges (populatePredsAndEdges unreachableProc).edges D) :=
  unreachable_block_dominators ⟨"A", ["C"]⟩ [⟨"C", []⟩, ⟨"U", ["C"]⟩]
    (least_of_strLt _ _ (by decide)) "U" (by decide) (by decide) (by decide) 9 (by decide)

/-- C10: for a procedure with pairwise distinct block names,
`populateBlockInfo` gives the block at position `k` of the block sequence the
index `k`, and `block_ids` is a bijection from the block names onto the
numbers below `numBlocks F`, the array dimension of `doInitialization`, which
is the number of blocks. -/
theorem populateBlockInfo_bijection (F : Procedure) (hnd : (blockNames F).Nodup) :
    (∀ k (hk : k < F.length), (populateBlockInfo F).block_ids (F[k].name) = k) ∧
    numBlocks F = F.length ∧
    Set.BijOn (populateBlockInfo F).block_ids {x | x ∈ blockNames F} {n | n < numBlocks F} := by
  have hids : ∀ k (hk : k < F.length), (populateBlockInfo F).block_ids (F[k].name) = k := by
    intro k hk
    unfold populateBlockInfo
    rw [populateBlockInfo_fold_ids F _ hnd k hk]
    simp
  have hname : ∀ x ∈ blockNames F, ∃ k, ∃ hk : k < F.length, F[k].name = x := by
    intro x hx
    obtain ⟨BB, hBB, hn⟩ := List.mem_map.mp hx
    obtain ⟨k, hk, e⟩ := List.getElem_of_mem hBB
    exact ⟨k, hk, by rw [e, hn]⟩
  refine ⟨hids, numBlocks_eq F, ?_, ?_, ?_⟩
  · intro x hx
    obtain ⟨k, hk, e⟩ := hname x hx
    show (populateBlockInfo F).block_ids x < numBlocks F
    rw [numBlocks_eq, ← e, hids k hk]
    exact hk
  · intro x hx y hy hxy
    obtain ⟨k, hk, e⟩ := hname x hx
    obtain ⟨j, hj, e'⟩ := hname y hy
    rw [← e, ← e', hids k hk, hids j hj] at hxy
    subst hxy
    rw [← e, ← e']
  · intro n hn
    have hn' : n < F.length := by
      rw [← numBlocks_eq]
      exact hn
    refine ⟨F[n].name, ?_, hids n hn'⟩
    exact List.mem_map.mpr ⟨F[n], List.getElem_mem _, rfl⟩

/-- Witness of C10 on `forProc`, whose five blocks get the indices
`0, 1, 2, 3, 4` in block-sequence order. -/
theorem populateBlockInfo_bijection_witness :
    ((∀ k (hk : k < forProc.length), (populateBlockInfo forProc).block_ids (forProc[k].name) = k) ∧
      numBlocks forProc = forProc.length ∧
      Set.BijOn (populateBlockInfo forProc).block_ids {x | x ∈ blockNames forProc}
        {n | n < numBlocks forProc}) ∧
    (blockNames forProc).map (populateBlockInfo forProc).block_ids = [0, 1, 2, 3, 4] :=
  ⟨populateBlockInfo_bijection forProc (by decide), by decide⟩

/-! ## The naming step of doInitialization -/

theorem digitChar_value (k : Nat) (hk : k < 10) : (Nat.digitChar k).toNat - 48 = k := by
  interval_cases k <;> rfl

theorem decimalValue_toDigitsCore (fuel : Nat) :
    ∀ (n : Nat) (ds : List Char), n < fuel →
      decimalValue 0 (Nat.toDigitsCore 10 fuel n ds) = decimalValue n ds := by
  induction fuel with
  | zero => intro n ds h; omega
  | succ fuel ih =>
    intro n ds h
    unfold Nat.toDigitsCore
    simp only
    by_cases h0 : n / 10 = 0
    · rw [if_pos h0]
      have hn : n < 10 := by omega
      simp only [decimalValue, List.foldl_cons, Nat.zero_mul, Nat.zero_add]
      rw [digitChar_value (n % 10) (Nat.mod_lt _ (by omega)), Nat.mod_eq_of_lt hn]
    · rw [if_neg h0]
      rw [ih (n / 10) _ (by omega)]
      simp only [decimalValue, List.foldl_cons]
      rw [digitChar_value (n % 10) (Nat.mod_lt _ (by omega))]
      congr 1
      omega

theorem decimalValue_repr (n : Nat) : decimalValue 0 (Nat.repr n).data = n := by
  unfold Nat.repr Nat.toDigits
  rw [show (Nat.toDigitsCore 10 (n + 1) n []).asString.data =
    Nat.toDigitsCore 10 (n + 1) n [] from rfl]
  rw [decimalValue_toDigitsCore (n + 1) n [] (by omega)]
  rfl

/-- Two positions with the same synthetic name are the same position. -/
theorem syntheticName_inj (i j : Nat) (h : "b" ++ toString i = "b" ++ toString j) : i = j := by
  have h1 : ("b" ++ toString i).data = ("b" ++ toString j).data := by rw [h]
  rw [String.data_append, String.data_append] at h1
  have h2 : (toString i).data = (toString j).data := List.append_cancel_left h1
  have hi := decimalValue_repr i
  have hj := decimalValue_repr j
  have h3 : (Nat.repr i).data = (Nat.repr j).data := h2
  rw [h3] at hi
  omega

/-- The block loop from a state whose symbol table holds names of the table
`T` and synthetic names of earlier positions, over blocks none of whose
requests is in `T`: every request is free, so every unnamed block gets the
name of its position. -/
theorem doInitialization_fold (S : SetName) (T : List String) (names : List (Option String)) :
    ∀ (st : NamingState),
      (∀ x ∈ st.symtab, x ∈ T ∨ ∃ j, j < st.numBlocks ∧ x = "b" ++ toString j) →
      (∀ p ∈ names.enumFrom st.numBlocks, p.2 = none → "b" ++ toString p.1 ∉ T) →
      (names.foldl (doInitialization_step S) st).names =
          st.names ++ (names.enumFrom st.numBlocks).map (fun p =>
            match p.2 with
            | some n => n
            | none => "b" ++ toString p.1) ∧
        (names.foldl (doInitialization_step S) st).numBlocks = st.numBlocks + names.length := by
  induction names with
  | nil => intro st _ _; simp
  | cons n names ih =>
    intro st hst h
    rw [List.enumFrom_cons] at h
    rw [List.foldl_cons]
    cases n with
    | some m =>
      have hstep : doInitialization_step S st (some m) =
          { symtab := st.symtab, names := st.names ++ [m], numBlocks := st.numBlocks + 1 } := rfl
      rw [hstep]
      obtain ⟨h1, h2⟩ := ih
        { symtab := st.symtab, names := st.names ++ [m], numBlocks := st.numBlocks + 1 }
        (fun x hx => by
          rcases hst x hx with hT | ⟨j, hj, e⟩
          · exact Or.inl hT
          · exact Or.inr ⟨j, Nat.lt_succ_of_lt hj, e⟩)
        (fun p hp => h p (List.mem_cons_of_mem _ hp))
      refine ⟨?_, ?_⟩
      · rw [h1]
        simp [List.enumFrom_cons]
      · rw [h2]
        simp only [List.length_cons]
        omega
    | none =>
      have hfree : "b" ++ toString st.numBlocks ∉ st.symtab := by
        intro hmem
        rcases hst _ hmem with hT | ⟨j, hj, e⟩
        · exact h (st.numBlocks, none) (List.mem_cons_self _ _) rfl hT
        · have := syntheticName_inj _ _ e
          omega
      have hstep : doInitialization_step S st none =
          { symtab := ("b" ++ toString st.numBlocks) :: st.symtab,
            names := st.names ++ ["b" ++ toString st.numBlocks],
            numBlocks := st.numBlocks + 1 } := by
        simp only [doInitialization_step]
        rw [S.free _ _ hfree]
      rw [hstep]
      obtain ⟨h1, h2⟩ := ih
        { symtab := ("b" ++ toString st.numBlocks) :: st.symtab,
          names := st.names ++ ["b" ++ toString st.numBlocks],
          numBlocks := st.numBlocks + 1 }
        (fun x hx => by
          rcases List.mem_cons.mp hx with e | hx
          · exact Or.inr ⟨st.numBlocks, Nat.lt_succ_self _, e⟩
          · rcases hst x hx with hT | ⟨j, hj, e⟩
            · exact Or.inl hT
            · exact Or.inr ⟨j, Nat.lt_succ_of_lt hj, e⟩)
        (fun p hp => h p (List.mem_cons_of_mem _ hp))
      refine ⟨?_, ?_⟩
      · rw [h1]
        simp [List.enumFrom_cons]
      · rw [h2]
        simp only [List.length_cons]
        omega

/-- The naming step when no request is taken: every block keeps its name or
gets the name of its position. -/
theorem doInitialization_names_free (S : SetName) (values : List String)
    (names : List (Option String))
    (hfree : ∀ p ∈ names.enum, p.2 = none →
      "b" ++ toString p.1 ∉ values ∧ some ("b" ++ toString p.1) ∉ names) :
    (doInitialization_names S values names).names =
        names.enum.map (fun p =>
          match p.2 with
          | some n => n
          | none => "b" ++ toString p.1) ∧
      (doInitialization_names S values names).numBlocks = names.length := by
  have h := doInitialization_fold S (values ++ names.filterMap id) names
    { symtab := values ++ names.filterMap id, names := [], numBlocks := 0 }
    (fun x hx => Or.inl hx)
    (fun p hp hn hmem => by
      have hp' : p ∈ names.enum := hp
      obtain ⟨h1, h2⟩ := hfree p hp' hn
      rcases List.mem_append.mp hmem with hv | hb
      · exact h1 hv
      · apply h2
        obtain ⟨a, ha, e⟩ := List.mem_filterMap.mp hb
        simp only [id_eq] at e
        rw [← e]
        exact ha)
  unfold doInitialization_names
  simpa [List.enum] using h

/-- C11 (counterexample): for a named block followed by two unnamed blocks,
in a function with no other named value, the naming step gives
`entry, b1, b2` whatever `setName` does with taken names, while the count of
the unnamed blocks before the second block is `0` and the specification names
it `b0`. -/
theorem unnamed_after_named :
    (∀ S : SetName,
      (doInitialization_names S [] [some "entry", none, none]).names =
        ["entry", "b1", "b2"]) ∧
    specName [some "entry", none, none] 1 = some "b0" ∧
    specName [some "entry", none, none] 2 = some "b1" :=
  ⟨fun S => (doInitialization_names_free S [] [some "entry", none, none] (by decide)).1,
    by decide, by decide⟩

/-- C11 (amended): when no name `b<k>` that the step requests for an unnamed
block at position `k` is the name of another value of the function or of a
named block, the naming step of `doInitialization` leaves the name of every
named block unchanged and gives every unnamed block the name `b` followed by
its zero-based position in the block sequence in decimal; the counter
`numBlocks` ends as the number of blocks. -/
theorem doInitialization_names_eq (S : SetName) (values : List String)
    (names : List (Option String))
    (hfree : ∀ p ∈ names.enum, p.2 = none →
      "b" ++ toString p.1 ∉ values ∧ some ("b" ++ toString p.1) ∉ names) :
    (doInitialization_names S values names).names =
        names.enum.map (fun p =>
          match p.2 with
          | some n => n
          | none => "b" ++ toString p.1) ∧
      (doInitialization_names S values names).numBlocks = names.length :=
  doInitialization_names_free S values names hfree

/-- Witness of the amended C11 on a function with the values `argc`, `argv`
and the blocks `entry`, unnamed, `b7`, unnamed: the blocks are named
`entry, b1, b7, b3`. -/
theorem doInitialization_names_eq_witness :
    (∀ p ∈ [some "entry", none, some "b7", none].enum, p.2 = none →
      "b" ++ toString p.1 ∉ ["argc", "argv"] ∧
        some ("b" ++ toString p.1) ∉ [some "entry", none, some "b7", none]) ∧
    ∀ S : SetName,
      (doInitialization_names S ["argc", "argv"] [some "entry", none, some "b7", none]).names =
          ["entry", "b1", "b7", "b3"] ∧
        (doInitialization_names S ["argc", "argv"]
          [some "entry", none, some "b7", none]).numBlocks = 4 :=
  ⟨by decide, fun S =>
    doInitialization_names_eq S ["argc", "argv"] [some "entry", none, some "b7", none]
      (by decide)⟩

/-! ## The passes of the fixpoint loop -/

theorem dominators_after_succ (preds : String → List String) (first : String)
    (rest : List String) (k : Nat) :
    dominators_after preds (first :: rest) (k + 1) =
      (rest.foldl (dominators_step preds (first :: rest))
        (dominators_after preds (first :: rest) k, false)).1 := by
  unfold dominators_after
  rw [Function.iterate_succ_apply']
  rfl

/-- The map after any number of passes satisfies the loop invariant. -/
theorem domInv_after (preds : String → List String) (first : String) (rest : List String)
    (hs : Sorted (first :: rest)) (k : Nat) :
    DomInv preds first rest (dominators_after preds (first :: rest) k) := by
  induction k with
  | zero => exact domInv_init preds first rest hs
  | succ k ih =>
    rw [dominators_after_succ]
    exact (fold_step_inv preds first rest hs (fun _ => True) (fun _ _ _ _ _ => trivial) rest
      (fun _ h => h) (_, false) ih trivial).1

/-- Recomputations only remove elements: after visiting the blocks `l` every
dominator set is a subset of what it was. -/
theorem fold_step_subset (preds : String → List String) (first : String) (rest : List String)
    (hs : Sorted (first :: rest)) (l : List String) (hl : ∀ b ∈ l, b ∈ rest)
    (st : (String → List String) × Bool) (hinv : DomInv preds first rest st.1) :
    ∀ x d, d ∈ (l.foldl (dominators_step preds (first :: rest)) st).1 x → d ∈ st.1 x := by
  refine (fold_step_inv preds first rest hs (fun s => ∀ x d, d ∈ s x → d ∈ st.1 x) ?_ l hl st
    hinv (fun _ _ h => h)).2.1
  intro dom b hb hdinv hq x d hd
  by_cases hx : x = b
  · subst hx
    rw [Function.update_same] at hd
    exact hq x d (hdinv.shrink x hb d hd)
  · rw [Function.update_noteq hx] at hd
    exact hq x d hd

theorem newDominators_mono (preds : String → List String) (blocks : List String)
    (dom dom' : String → List String) (h : ∀ x d, d ∈ dom' x → d ∈ dom x) (b d : String)
    (hd : d ∈ newDominators preds blocks dom' b) : d ∈ newDominators preds blocks dom b := by
  rw [mem_newDominators] at hd ⊢
  rcases hd with h1 | h1
  · exact Or.inl h1
  · exact Or.inr ⟨h1.1, fun p hp => h p d (h1.2 p hp)⟩

/-- After visiting the blocks `l`, the dominator set of each of them is within
its recomputation from the map before the visit. -/
theorem fold_step_bound (preds : String → List String) (first : String) (rest : List String)
    (hs : Sorted (first :: rest)) (l : List String) (hl : ∀ b ∈ l, b ∈ rest)
    (st : (String → List String) × Bool) (hinv : DomInv preds first rest st.1) :
    ∀ b ∈ l, ∀ d ∈ (l.foldl (dominators_step preds (first :: rest)) st).1 b,
      d ∈ newDominators preds (first :: rest) st.1 b := by
  induction l generalizing st with
  | nil => intro b hb; simp at hb
  | cons b0 l ih =>
    intro b hb d hd
    have hb0 : b0 ∈ rest := hl b0 (List.mem_cons_self b0 l)
    have hl' : ∀ x ∈ l, x ∈ rest := fun x hx => hl x (List.mem_cons_of_mem b0 hx)
    have hinv' : DomInv preds first rest (dominators_step preds (first :: rest) st b0).1 :=
      domInv_update preds first rest hs st.1 hinv b0 hb0
    rw [List.foldl_cons] at hd
    by_cases hbl : b ∈ l
    · have h1 := ih hl' _ hinv' b hbl d hd
      refine newDominators_mono preds (first :: rest) st.1 _ ?_ b d h1
      intro x d' hd'
      by_cases hx : x = b0
      · subst hx
        simp only [dominators_step, Function.update_same] at hd'
        exact hinv.shrink x hb0 d' hd'
      · simp only [dominators_step, Function.update_noteq hx] at hd'
        exact hd'
    · have hbb : b = b0 := by
        rcases List.mem_cons.mp hb with h | h
        · exact h
        · exact absurd h hbl
      subst hbb
      have h1 := fold_step_subset preds first rest hs l hl' _ hinv' b d hd
      simpa only [dominators_step, Function.update_same] using h1

theorem dominators_after_succ_subset (preds : String → List String) (first : String)
    (rest : List String) (hs : Sorted (first :: rest)) (k : Nat) (x d : String)
    (hd : d ∈ dominators_after preds (first :: rest) (k + 1) x) :
    d ∈ dominators_after preds (first :: rest) k x := by
  rw [dominators_after_succ] at hd
  exact fold_step_subset preds first rest hs rest (fun _ h => h) (_, false)
    (domInv_after preds first rest hs k) x d hd

/-- The dominator sets only shrink from pass to pass. -/
theorem dominators_after_mono (preds : String → List String) (first : String)
    (rest : List String) (hs : Sorted (first :: rest)) (j k : Nat) (hjk : j ≤ k) (x d : String)
    (hd : d ∈ dominators_after preds (first :: rest) k x) :
    d ∈ dominators_after preds (first :: rest) j x := by
  induction k with
  | zero =>
    have : j = 0 := by omega
    rw [this]; exact hd
  | succ k ih =>
    by_cases hj : j = k + 1
    · rw [hj]; exact hd
    · exact ih (by omega) (dominators_after_succ_subset preds first rest hs k x d hd)

/-- After a pass a block other than the first holds at most its recomputation
from the map before the pass. -/
theorem dominators_after_succ_bound (preds : String → List String) (first : String)
    (rest : List String) (hs : Sorted (first :: rest)) (k : Nat) (b : String) (hb : b ∈ rest)
    (d : String) (hd : d ∈ dominators_after preds (first :: rest) (k + 1) b) :
    d ∈ newDominators preds (first :: rest) (dominators_after preds (first :: rest) k) b := by
  rw [dominators_after_succ] at hd
  exact fold_step_bound preds first rest hs rest (fun _ h => h) (_, false)
    (domInv_after preds first rest hs k) b hb d hd

/-! ## Paths in the graph of a predecessor map -/

theorem isPredPath_single (preds : String → List String) (a : String) :
    IsPredPath preds a a [a] :=
  ⟨rfl, rfl, List.chain'_singleton a⟩

theorem isPredPath_snoc {preds : String → List String} {a b c : String} {l : List String}
    (h : IsPredPath preds a b l) (he : b ∈ preds c) : IsPredPath preds a c (l ++ [c]) := by
  obtain ⟨h1, h2, h3⟩ := h
  have hne : l ≠ [] := by
    intro e
    rw [e] at h1
    simp at h1
  refine ⟨?_, ?_, ?_⟩
  · rw [List.head?_append_of_ne_nil l hne]; exact h1
  · simp
  · refine List.Chain'.append h3 (List.chain'_singleton c) ?_
    intro x hx y hy
    rw [h2] at hx
    simp only [Option.mem_def, Option.some.injEq, List.head?_cons] at hx hy
    rw [← hx, ← hy]
    exact he

theorem isPredPath_snoc_cases {preds : String → List String} {a b : String} {l : List String}
    (h : IsPredPath preds a b l) :
    (a = b ∧ l = [a]) ∨ ∃ l' y, l = l' ++ [b] ∧ IsPredPath preds a y l' ∧ y ∈ preds b := by
  obtain ⟨h1, h2, h3⟩ := h
  rcases List.eq_nil_or_concat l with e | ⟨l', x, e⟩
  · rw [e] at h1; simp at h1
  · rw [List.concat_eq_append] at e
    subst e
    have hx : x = b := by simpa using h2
    subst hx
    rcases List.eq_nil_or_concat l' with e' | ⟨l'', y, e'⟩
    · subst e'
      left
      simp only [List.nil_append, List.head?_cons, Option.some.injEq] at h1
      exact ⟨h1.symm, by rw [h1]; rfl⟩
    · right
      rw [List.concat_eq_append] at e'
      subst e'
      have hc := List.chain'_append.mp h3
      refine ⟨l'' ++ [y], y, rfl, ?_, ?_⟩
      · refine ⟨?_, by simp, hc.1⟩
        rw [List.head?_append_of_ne_nil _ (by simp)] at h1
        exact h1
      · exact hc.2.2 y (by simp) x (by simp)

theorem isPredPath_cons_cases {preds : String → List String} {a b : String} {l : List String}
    (h : IsPredPath preds a b l) :
    (a = b ∧ l = [a]) ∨ ∃ c l', l = a :: l' ∧ a ∈ preds c ∧ IsPredPath preds c b l' := by
  obtain ⟨h1, h2, h3⟩ := h
  cases l with
  | nil => simp at h1
  | cons x l =>
    simp only [List.head?_cons, Option.some.injEq] at h1
    subst h1
    cases l with
    | nil =>
      left
      simp only [List.getLast?_singleton, Option.some.injEq] at h2
      exact ⟨h2, rfl⟩
    | cons c l =>
      right
      rw [List.getLast?_cons_cons] at h2
      rw [List.chain'_cons] at h3
      exact ⟨c, c :: l, rfl, h3.1, rfl, h2, h3.2⟩

/-- The blocks of a path that ends in a block are blocks, when the members of
the predecessor map are blocks. -/
theorem isPredPath_mem_blocks (preds : String → List String) (blocks : List String)
    (hmem : ∀ q p, p ∈ preds q → p ∈ blocks) (l : List String) :
    ∀ a b, IsPredPath preds a b l → b ∈ blocks → ∀ x ∈ l, x ∈ blocks := by
  induction l using List.reverseRecOn with
  | nil =>
    intro a b hp
    have := hp.1
    simp at this
  | append_singleton l' z ih =>
    intro a b hp hb x hx
    rcases isPredPath_snoc_cases hp with ⟨h1, h2⟩ | ⟨l'', y, e, hp', he⟩
    · rw [h2] at hx
      rw [List.mem_singleton.mp hx, h1]
      exact hb
    · have e' := List.append_inj' e rfl
      have e1 : l' = l'' := e'.1
      have e2 : z = b := by simpa using e'.2
      subst e1
      rcases List.mem_append.mp hx with h | h
      · exact ih a y hp' (hmem b y he) x h
      · rw [List.mem_singleton.mp h, e2]
        exact hb

/-- Every path contains a path without repetition between the same ends. -/
theorem isPredPath_nodup (preds : String → List String) (l : List String) :
    ∀ a b, IsPredPath preds a b l →
      ∃ l', IsPredPath preds a b l' ∧ l'.Nodup ∧ ∀ x ∈ l', x ∈ l := by
  induction l with
  | nil =>
    intro a b hp
    have := hp.1
    simp at this
  | cons x l ih =>
    intro a b hp
    rcases isPredPath_cons_cases hp with ⟨h1, h2⟩ | ⟨c, l0, e, he, hp'⟩
    · refine ⟨[a], ?_, List.nodup_singleton a, ?_⟩
      · rw [← h1]; exact isPredPath_single preds a
      · intro y hy
        rw [h2]; exact hy
    · have hxa : x = a := (List.cons.inj e).1
      have el : l = l0 := (List.cons.inj e).2
      subst el
      subst hxa
      obtain ⟨l1, hp1, hnd1, hsub1⟩ := ih c b hp'
      by_cases hx : x ∈ l1
      · obtain ⟨s, t, est⟩ := List.append_of_mem hx
        subst est
        obtain ⟨_, h2, h3⟩ := hp1
        refine ⟨x :: t, ⟨rfl, ?_, ?_⟩, ?_, ?_⟩
        · rw [List.getLast?_append_of_ne_nil s (by simp)] at h2
          exact h2
        · exact (List.chain'_append.mp h3).2.1
        · exact (List.nodup_append.mp hnd1).2.1
        · intro y hy
          exact List.mem_cons_of_mem x (hsub1 y (List.mem_append_right s hy))
      · have hc1 : l1.head? = some c := hp1.1
        refine ⟨x :: l1, ⟨rfl, ?_, ?_⟩, List.nodup_cons.mpr ⟨hx, hnd1⟩, ?_⟩
        · cases l1 with
          | nil => simp at hc1
          | cons z l1 =>
            rw [List.getLast?_cons_cons]
            exact hp1.2.1
        · cases l1 with
          | nil => simp at hc1
          | cons z l1 =>
            simp only [List.head?_cons, Option.some.injEq] at hc1
            rw [List.chain'_cons]
            exact ⟨hc1 ▸ he, hp1.2.2⟩
        · intro y hy
          rcases List.mem_cons.mp hy with h | h
          · rw [h]; exact List.mem_cons_self x l
          · exact List.mem_cons_of_mem x (hsub1 y h)

/-! ## The number of passes -/

/-- After as many passes as a path from the first block has edges, the
dominator set of its end holds only blocks of the path. -/
theorem dominators_after_path (preds : String → List String) (first : String)
    (rest : List String) (hs : Sorted (first :: rest))
    (hmem : ∀ q p, p ∈ preds q → p ∈ first :: rest) (l : List String) :
    ∀ b, b ∈ first :: rest → IsPredPath preds first b l →
      ∀ d ∈ dominators_after preds (first :: rest) (l.length - 1) b, d ∈ l := by
  induction l using List.reverseRecOn with
  | nil =>
    intro b _ hp
    have := hp.1
    simp at this
  | append_singleton l' z ih =>
    intro b hb hp d hd
    have hfl : first ∈ l' ++ [z] := List.mem_of_mem_head? hp.1
    by_cases hbf : b = first
    · rw [hbf, (domInv_after preds first rest hs _).first_eq] at hd
      rw [List.mem_singleton.mp hd]
      exact hfl
    · have hbr : b ∈ rest := by
        rcases List.mem_cons.mp hb with h | h
        · exact absurd h hbf
        · exact h
      rcases isPredPath_snoc_cases hp with ⟨h1, _⟩ | ⟨l'', y, e, hp', he⟩
      · exact absurd h1.symm hbf
      · have e' := List.append_inj' e rfl
        have e1 : l' = l'' := e'.1
        subst e1
        have hne : l' ≠ [] := by
          intro e0
          have := hp'.1
          rw [e0] at this
          simp at this
        have hlen : (l' ++ [z]).length - 1 = (l'.length - 1) + 1 := by
          have := List.length_pos.mpr hne
          simp only [List.length_append, List.length_singleton]
          omega
        rw [hlen] at hd
        have h1 := dominators_after_succ_bound preds first rest hs _ b hbr d hd
        rw [mem_newDominators] at h1
        rcases h1 with h | h
        · rw [h, e]; simp
        · exact List.mem_append_left _ (ih y (hmem b y he) hp' d (h.2 y he))

/-- The dominator set of a block always holds the blocks that lie on every
path from the first block to it. -/
theorem dominators_after_complete (preds : String → List String) (first : String)
    (rest : List String) (hs : Sorted (first :: rest))
    (hmem : ∀ q p, p ∈ preds q → p ∈ first :: rest) (k : Nat) :
    ∀ x ∈ first :: rest, ∀ d ∈ first :: rest,
      (∀ l, IsPredPath preds first x l → d ∈ l) →
        d ∈ dominators_after preds (first :: rest) k x := by
  have hfr : first ∉ rest := (List.nodup_cons.mp (sorted_nodup hs)).1
  induction k with
  | zero =>
    intro x hx d hd hdom
    show d ∈ initDominators (first :: rest) x
    rcases List.mem_cons.mp hx with h | h
    · subst h
      rw [initDominators_first x rest hfr]
      exact hdom [x] (isPredPath_single preds x)
    · rw [initDominators_rest first rest x h]
      exact hd
  | succ k ih =>
    rw [dominators_after_succ]
    refine (fold_step_inv preds first rest hs
      (fun s => ∀ x ∈ first :: rest, ∀ d ∈ first :: rest,
        (∀ l, IsPredPath preds first x l → d ∈ l) → d ∈ s x) ?_ rest (fun _ h => h)
      (_, false) (domInv_after preds first rest hs k) ih).2.1
    intro dom b _ _ hq x hx d hd hdom
    by_cases hxb : x = b
    · subst hxb
      rw [Function.update_same, mem_newDominators]
      by_cases hdx : d = x
      · exact Or.inl hdx
      · right
        refine ⟨hd, ?_⟩
        intro p hp
        apply hq p (hmem x p hp) d hd
        intro l hl
        have := hdom (l ++ [x]) (isPredPath_snoc hl hp)
        rcases List.mem_append.mp this with h | h
        · exact h
        · exact absurd (List.mem_singleton.mp h) hdx
    · rw [Function.update_noteq hxb]
      exact hq x hx d hd hdom

/-- From `|blocks| - 1` passes on, the dominator set of a block is the set of
the blocks that lie on every path from the first block to it. -/
theorem dominators_after_exact (preds : String → List String) (first : String)
    (rest : List String) (hs : Sorted (first :: rest))
    (hmem : ∀ q p, p ∈ preds q → p ∈ first :: rest) (k : Nat) (hk : rest.length ≤ k)
    (b : String) (hb : b ∈ first :: rest) (d : String) :
    d ∈ dominators_after preds (first :: rest) k b ↔
      (d ∈ first :: rest ∧ ∀ l, IsPredPath preds first b l → d ∈ l) := by
  constructor
  · intro hd
    constructor
    · have h0 := dominators_after_mono preds first rest hs 0 k (Nat.zero_le k) b d hd
      have h0' : d ∈ initDominators (first :: rest) b := h0
      have hfr : first ∉ rest := (List.nodup_cons.mp (sorted_nodup hs)).1
      rcases List.mem_cons.mp hb with h | h
      · rw [h, initDominators_first first rest hfr] at h0'
        rw [List.mem_singleton.mp h0']
        exact List.mem_cons_self first rest
      · rw [initDominators_rest first rest b h] at h0'
        exact h0'
    · intro l hl
      obtain ⟨l', hl', hnd, hsub⟩ := isPredPath_nodup preds l first b hl
      have hblocks := isPredPath_mem_blocks preds (first :: rest) hmem l' first b hl' hb
      have hlen : l'.length ≤ (first :: rest).length :=
        (List.subperm_of_subset hnd hblocks).length_le
      have hlen' : l'.length - 1 ≤ k := by
        simp only [List.length_cons] at hlen
        omega
      exact hsub d (dominators_after_path preds first rest hs hmem l' b hb hl' d
        (dominators_after_mono preds first rest hs _ k hlen' b d hd))
  · rintro ⟨hd, hdom⟩
    exact dominators_after_complete preds first rest hs hmem k b hb d hd hdom

/-! ## The passes that the loop executes -/

/-- A pass that leaves the dominator set of every block as it was ends with
`change == false`. -/
theorem pass_unchanged_flag (preds : String → List String) (first : String)
    (rest : List String) (hs : Sorted (first :: rest)) (dom : String → List String)
    (hinv : DomInv preds first rest dom)
    (heq : ∀ b ∈ rest, (dominators_pass preds (first :: rest) dom).1 b = dom b) :
    (dominators_pass preds (first :: rest) dom).2 = false := by
  by_contra hc
  have hc' : (dominators_pass preds (first :: rest) dom).2 = true := by simpa using hc
  have h := (fold_step_inv preds first rest hs (fun _ => True) (fun _ _ _ _ _ => trivial) rest
    (fun _ h => h) (dom, false) hinv trivial).2.2.2
  have hm : domMeasure rest (dominators_pass preds (first :: rest) dom).1 =
      domMeasure rest dom := by
    unfold domMeasure
    congr 1
    apply List.map_congr_left
    intro b hb
    rw [heq b hb]
  rcases h hc' with h1 | h1
  · exact Bool.false_ne_true h1
  · have h2 : domMeasure rest (dominators_pass preds (first :: rest) dom).1 <
        domMeasure rest dom := h1
    omega

/-- The loop returns when one of the first `fuel` passes ends with
`change == false`. -/
theorem dominators_loop_some (preds : String → List String) (blocks : List String) (n : Nat) :
    ∀ (fuel : Nat) (dom : String → List String),
      (dominators_pass preds blocks
        ((fun d => (dominators_pass preds blocks d).1)^[n] dom)).2 = false →
      n + 1 ≤ fuel → ∃ D, dominators_loop preds blocks fuel dom = some D := by
  induction n with
  | zero =>
    intro fuel dom h hf
    cases fuel with
    | zero => omega
    | succ fuel =>
      simp only [Function.iterate_zero, id_eq] at h
      unfold dominators_loop
      simp [h]
  | succ n ih =>
    intro fuel dom h hf
    cases fuel with
    | zero => omega
    | succ fuel =>
      unfold dominators_loop
      by_cases hc : (dominators_pass preds blocks dom).2 = true
      · simp only [hc, if_true]
        rw [Function.iterate_succ_apply] at h
        exact ih fuel _ h (by omega)
      · simp [hc]

/-- The passes of a run: when the loop returns `D`, it has executed a number
`j` of passes that set `change`, then one that did not, and `D` is the map
after these `j + 1` passes. -/
theorem dominators_loop_passes (preds : String → List String) (blocks : List String) :
    ∀ (fuel : Nat) (dom D : String → List String),
      dominators_loop preds blocks fuel dom = some D →
      ∃ j, j < fuel ∧
        (∀ i < j, (dominators_pass preds blocks
          ((fun d => (dominators_pass preds blocks d).1)^[i] dom)).2 = true) ∧
        (dominators_pass preds blocks
          ((fun d => (dominators_pass preds blocks d).1)^[j] dom)).2 = false ∧
        D = (fun d => (dominators_pass preds blocks d).1)^[j + 1] dom := by
  intro fuel
  induction fuel with
  | zero =>
    intro dom D h
    simp [dominators_loop] at h
  | succ fuel ih =>
    intro dom D h
    unfold dominators_loop at h
    by_cases hc : (dominators_pass preds blocks dom).2 = true
    · simp only [hc, if_true] at h
      obtain ⟨j, hj, h1, h2, h3⟩ := ih _ D h
      refine ⟨j + 1, by omega, ?_, ?_, ?_⟩
      · intro i hi
        cases i with
        | zero => exact hc
        | succ i =>
          rw [Function.iterate_succ_apply]
          exact h1 i (by omega)
      · rw [Function.iterate_succ_apply]
        exact h2
      · rw [Function.iterate_succ_apply]
        exact h3
    · simp only [hc, Bool.false_eq_true, if_false, Option.some.injEq] at h
      refine ⟨0, by omega, ?_, ?_, ?_⟩
      · intro i hi
        omega
      · simpa using hc
      · rw [← h]
        rfl

/-- A map that the loop returns is left as it is by a further pass. -/
theorem dominators_loop_fixed (preds : String → List String) (blocks : List String) :
    ∀ (fuel : Nat) (dom D : String → List String),
      dominators_loop preds blocks fuel dom = some D →
      dominators_pass preds blocks D = (D, false) := by
  intro fuel
  induction fuel with
  | zero =>
    intro dom D h
    simp [dominators_loop] at h
  | succ fuel ih =>
    intro dom D h
    unfold dominators_loop at h
    by_cases hc : (dominators_pass preds blocks dom).2 = true
    · simp only [hc, if_true] at h
      exact ih _ D h
    · simp only [hc, Bool.false_eq_true, if_false, Option.some.injEq] at h
      have hc' : (dominators_pass preds blocks dom).2 = false := by simpa using hc
      have hu := fold_step_unchanged preds blocks blocks.tail (dom, false) hc'
      have h1 : (dominators_pass preds blocks dom).1 = dom := hu.2.1
      have hD : D = dom := by rw [← h, h1]
      rw [hD]
      exact Prod.ext h1 hc'

/-- The predecessor map of a procedure whose successors are all blocks has its
keys and members among the blocks. -/
theorem predecessors_mem_blocks (F : Procedure)
    (hsucc : ∀ BB ∈ F, ∀ s ∈ BB.successors, s ∈ blockNames F) (q p : String)
    (h : p ∈ (populatePredsAndEdges F).predecessors q) :
    q ∈ (populateBlockInfo F).blocks ∧ p ∈ (populateBlockInfo F).blocks := by
  rw [mem_predecessors] at h
  rw [mem_blocks, mem_blocks]
  refine ⟨?_, isEdge_source_mem h⟩
  obtain ⟨BB, hBB, _, hq⟩ := h
  exact hsucc BB hBB q hq

/-- C12: for a non-empty block set `first :: rest` (the strictly increasing
sequence of a `std::set`) and a predecessor map whose keys and members are
blocks of the set, the `do ... while(change)` loop of `populateDominatorSets`
returns when more than `|rest| * (|rest| + 1)` passes are allowed, its result
being the map after the passes it executed; and in every pass, when a block
`b` is recomputed in the state reached after the blocks `l1` before it, the
recomputed set is a subset of the set that `b` had. -/
theorem populateDominatorSets_terminates_shrinking (first : String) (rest : List String)
    (hs : Sorted (first :: rest)) (preds : String → List String)
    (_hpreds : ∀ q p, p ∈ preds q → q ∈ first :: rest ∧ p ∈ first :: rest)
    (fuel : Nat) (hfuel : rest.length * (rest.length + 1) < fuel) :
    (∃ D j, populateDominatorSets fuel preds (first :: rest) = some D ∧ j < fuel ∧
      D = dominators_after preds (first :: rest) (j + 1)) ∧
    ∀ (k : Nat) (l1 l2 : List String) (b : String), rest = l1 ++ b :: l2 →
      ∀ d ∈ newDominators preds (first :: rest)
          (l1.foldl (dominators_step preds (first :: rest))
            (dominators_after preds (first :: rest) k, false)).1 b,
        d ∈ (l1.foldl (dominators_step preds (first :: rest))
            (dominators_after preds (first :: rest) k, false)).1 b := by
  constructor
  · obtain ⟨D, hD, _⟩ := populateDominatorSets_result preds first rest hs (fun _ => True)
      (fun _ _ _ _ _ => trivial) trivial fuel hfuel
    obtain ⟨j, hj, _, _, hDj⟩ :=
      dominators_loop_passes preds (first :: rest) fuel (initDominators (first :: rest)) D hD
    exact ⟨D, j, hD, hj, hDj⟩
  · intro k l1 l2 b hrest
    have hl1 : ∀ x ∈ l1, x ∈ rest := by
      intro x hx
      rw [hrest]
      exact List.mem_append_left _ hx
    have hb : b ∈ rest := by
      rw [hrest]
      exact List.mem_append_right _ (List.mem_cons_self b l2)
    have hinv := (fold_step_inv preds first rest hs (fun _ => True) (fun _ _ _ _ _ => trivial)
      l1 hl1 (dominators_after preds (first :: rest) k, false)
      (domInv_after preds first rest hs k) trivial).1
    exact hinv.shrink b hb

/-- Witness of C12 on the block set and the predecessor map of `forProc`. -/
theorem populateDominatorSets_terminates_shrinking_witness :
    (∃ D j, populateDominatorSets 21 (populatePredsAndEdges forProc).predecessors
        ["entry", "for.body", "for.cond", "for.end", "for.inc"] = some D ∧ j < 21 ∧
      D = dominators_after (populatePredsAndEdges forProc).predecessors
        ["entry", "for.body", "for.cond", "for.end", "for.inc"] (j + 1)) ∧
    ∀ (k : Nat) (l1 l2 : List String) (b : String),
      ["for.body", "for.cond", "for.end", "for.inc"] = l1 ++ b :: l2 →
      ∀ d ∈ newDominators (populatePredsAndEdges forProc).predecessors
          ["entry", "for.body", "for.cond", "for.end", "for.inc"]
          (l1.foldl (dominators_step (populatePredsAndEdges forProc).predecessors
              ["entry", "for.body", "for.cond", "for.end", "for.inc"])
            (dominators_after (populatePredsAndEdges forProc).predecessors
              ["entry", "for.body", "for.cond", "for.end", "for.inc"] k, false)).1 b,
        d ∈ (l1.foldl (dominators_step (populatePredsAndEdges forProc).predecessors
              ["entry", "for.body", "for.cond", "for.end", "for.inc"])
            (dominators_after (populatePredsAndEdges forProc).predecessors
              ["entry", "for.body", "for.cond", "for.end", "for.inc"] k, false)).1 b :=
  populateDominatorSets_terminates_shrinking "entry"
    ["for.body", "for.cond", "for.end", "for.inc"] (by unfold Sorted; decide)
    (populatePredsAndEdges forProc).predecessors
    (fun q p h => predecessors_mem_blocks forProc (by decide) q p h) 21 (by decide)

/-- C13: for a block set `first :: rest` of `N` blocks and a predecessor map
whose keys and members are blocks of the set, the loop of
`populateDominatorSets` returns when `N` passes are allowed: it executes `j`
passes that set `change` and one that does not, with `j + 1 ≤ N`, and the map
`D` it returns, the map after these `j + 1` passes, is left as it is by a
further pass. -/
theorem populateDominatorSets_passes_le (first : String) (rest : List String)
    (hs : Sorted (first :: rest)) (preds : String → List String)
    (hpreds : ∀ q p, p ∈ preds q → q ∈ first :: rest ∧ p ∈ first :: rest)
    (fuel : Nat) (hfuel : (first :: rest).length ≤ fuel) :
    ∃ D j, populateDominatorSets fuel preds (first :: rest) = some D ∧
      j + 1 ≤ (first :: rest).length ∧
      (∀ i < j, (dominators_pass preds (first :: rest)
        (dominators_after preds (first :: rest) i)).2 = true) ∧
      (dominators_pass preds (first :: rest)
        (dominators_after preds (first :: rest) j)).2 = false ∧
      D = dominators_after preds (first :: rest) (j + 1) ∧
      dominators_pass preds (first :: rest) D = (D, false) := by
  have hmem : ∀ q p, p ∈ preds q → p ∈ first :: rest := fun q p h => (hpreds q p h).2
  have hflag : (dominators_pass preds (first :: rest)
      (dominators_after preds (first :: rest) rest.length)).2 = false := by
    apply pass_unchanged_flag preds first rest hs _ (domInv_after preds first rest hs _)
    intro b hb
    have hb' : b ∈ first :: rest := List.mem_cons_of_mem first hb
    have hsucc : (dominators_pass preds (first :: rest)
        (dominators_after preds (first :: rest) rest.length)).1 =
        dominators_after preds (first :: rest) (rest.length + 1) := by
      rw [dominators_after_succ]
      rfl
    rw [hsucc]
    apply sorted_eq_of_mem_iff ((domInv_after preds first rest hs _).sorted b)
      ((domInv_after preds first rest hs _).sorted b)
    intro d
    rw [dominators_after_exact preds first rest hs hmem (rest.length + 1) (by omega) b hb' d,
      dominators_after_exact preds first rest hs hmem rest.length (le_refl _) b hb' d]
  have hlen : rest.length + 1 ≤ fuel := by simpa using hfuel
  obtain ⟨D, hD⟩ := dominators_loop_some preds (first :: rest) rest.length fuel
    (initDominators (first :: rest)) hflag hlen
  obtain ⟨j, _, h1, h2, h3⟩ :=
    dominators_loop_passes preds (first :: rest) fuel (initDominators (first :: rest)) D hD
  have hj : j ≤ rest.length := by
    by_contra hc
    have := h1 rest.length (by omega)
    have hflag' : (dominators_pass preds (first :: rest)
        ((fun d => (dominators_pass preds (first :: rest) d).1)^[rest.length]
          (initDominators (first :: rest)))).2 = false := hflag
    rw [this] at hflag'
    exact Bool.noConfusion hflag'
  refine ⟨D, j, hD, by simpa using hj, h1, h2, h3, ?_⟩
  exact dominators_loop_fixed preds (first :: rest) fuel (initDominators (first :: rest)) D hD

/-- Witness of C13 on the block set and the predecessor map of `forProc`,
with its five blocks and five passes allowed. -/
theorem populateDominatorSets_passes_le_witness :
    ∃ D j, populateDominatorSets 5 (populatePredsAndEdges forProc).predecessors
        ["entry", "for.body", "for.cond", "for.end", "for.inc"] = some D ∧
      j + 1 ≤ ["entry", "for.body", "for.cond", "for.end", "for.inc"].length ∧
      (∀ i < j, (dominators_pass (populatePredsAndEdges forProc).predecessors
        ["entry", "for.body", "for.cond", "for.end", "for.inc"]
        (dominators_after (populatePredsAndEdges forProc).predecessors
          ["entry", "for.body", "for.cond", "for.end", "for.inc"] i)).2 = true) ∧
      (dominators_pass (populatePredsAndEdges forProc).predecessors
        ["entry", "for.body", "for.cond", "for.end", "for.inc"]
        (dominators_after (populatePredsAndEdges forProc).predecessors
          ["entry", "for.body", "for.cond", "for.end", "for.inc"] j)).2 = false ∧
      D = dominators_after (populatePredsAndEdges forProc).predecessors
        ["entry", "for.body", "for.cond", "for.end", "for.inc"] (j + 1) ∧
      dominators_pass (populatePredsAndEdges forProc).predecessors
        ["entry", "for.body", "for.cond", "for.end", "for.inc"] D = (D, false) :=
  populateDominatorSets_passes_le "entry" ["for.body", "for.cond", "for.end", "for.inc"]
    (by unfold Sorted; decide) (populatePredsAndEdges forProc).predecessors
    (fun q p h => predecessors_mem_blocks forProc (by decide) q p h) 5 (by decide)

end CS201Profiling
